import Mathlib

/-! mopt: getopt style option parsing.

A shallow embedding of `mopt.go` (package `mopt`) and theorems about it.

* A Go `string` is a sequence of bytes: `GoString` is a list of naturals, each below 256.
  Indexing `s[k]`, `len(s)` and slicing `s[k:]` are `List.getD`, `List.length`, `List.drop`.
* A `rune` is an `int32`: the flag is an `Int`, and the conversion `byte(flag)` keeps its low
  eight bits.
* The package reads the process state `os.Args` and the package variables `Exit` and
  `HelpLead`; they are gathered in `Env` and passed explicitly.
* The help path prints and calls `Exit(0)`.  The default `Exit` is `os.Exit`, which ends the
  process; a replacement (as installed by the tests) returns to the scanner.  Every query
  yields a `Run`: the value it returned, if it returned, with the calls it made to `println`
  and to `Exit`.
* `OptL` makes no call to `Exit`; its result is an `Option`, `none` for the panic of
  `os.Args[1:]` on an empty `os.Args`.
* The `uint32` masks of `OptCSF` are naturals, with `% 2 ^ 32` after the shift and the
  complement taken within 32 bits.
* The namespace `Checked` holds a second embedding in which every index and slice
  expression is checked against the length, as the Go run time does.
-/

namespace Mopt

/-! ## Strings -/

/-- A Go string: its bytes. -/
abbrev GoString := List Nat

/-- The UTF-8 encoding of a code point, as the Go compiler stores a string literal. -/
def utf8 (c : Nat) : GoString :=
  if c < 0x80 then [c]
  else if c < 0x800 then [0xC0 + c / 64, 0x80 + c % 64]
  else if c < 0x10000 then [0xE0 + c / 4096, 0x80 + c / 64 % 64, 0x80 + c % 64]
  else [0xF0 + c / 262144, 0x80 + c / 4096 % 64, 0x80 + c / 64 % 64, 0x80 + c % 64]

/-- The bytes of a string literal. -/
def str (s : String) : GoString :=
  s.data.flatMap fun c => utf8 c.toNat

/-- The conversion `byte(flag)` of a rune: the low eight bits. -/
def byte (flag : Int) : Nat :=
  (flag % 256).toNat

/-! ## Process state and effects -/

/-- The value of the package variable `Exit`. -/
inductive ExitHook where
  /-- The default, `os.Exit`: the process ends, the call does not return. -/
  | osExit
  /-- A replacement that notes the status and returns, as the tests install. -/
  | returning
  deriving DecidableEq, Repr

/-- The state a query reads: `os.Args` and the package variables `Exit` and `HelpLead`. -/
structure Env where
  Args : List GoString
  Exit : ExitHook
  HelpLead : GoString
  deriving DecidableEq, Repr

/-- The calls made so far: the argument lists of `println` and the statuses given to `Exit`,
oldest first. -/
structure Trace where
  printed : List (List GoString)
  exits : List Int
  deriving DecidableEq, Repr

/-- The outcome of a query: `ret` is the returned value, `none` when `os.Exit` ended the
process inside the call. -/
structure Run (α : Type) where
  ret : Option α
  trace : Trace
  deriving DecidableEq, Repr

/-- Continue a run with a pure computation on its value. -/
def Run.map {α β : Type} (f : α → β) (r : Run α) : Run β :=
  ⟨r.ret.map f, r.trace⟩

/-- The type `Usage` of the package: the help text. -/
abbrev Usage := GoString

/-! ## The scanner -/

/-- The `args:` loop of `optss`.  `rest` is `os.Args[i:]`, so its head is `os.Args[i]` and
the loop condition `i < len(os.Args)` holds exactly when `rest` is not empty.  The result is
the triple `(i, s, ok)` with which the loop is left. -/
def optssLoop (E : Env) (u : Usage) (flag : Int) :
    List GoString → Nat → GoString → Trace → Run (Nat × GoString × Bool)
  | [], i, s, tr => ⟨some (i, s, false), tr⟩
  | a :: rest, i, _, tr =>
    let s := a
    if s.length < 2 then
      optssLoop E u flag rest (i + 1) s tr
    else if s.getD 0 0 = 45 ∧ s.getD 1 0 = byte flag then
      ⟨some (i + 1, s, true), tr⟩
    else if s.getD 0 0 = 45 ∧ s.getD 1 0 = 104 then
      let tr1 : Trace := ⟨tr.printed ++ [[E.Args.getD 0 [], E.HelpLead, u]], tr.exits ++ [0]⟩
      match E.Exit with
      | .osExit => ⟨none, tr1⟩
      | .returning => optssLoop E u flag rest (i + 1) s tr1
    else if s.getD 0 0 = 45 ∧ s.getD 1 0 = 45 then
      ⟨some (i, s, false), tr⟩
    else
      optssLoop E u flag rest (i + 1) s tr

/-- The final `switch` of `optss`, on the state `(i, s, ok)` left by the loop. -/
def optssResult (E : Env) : Nat × GoString × Bool → GoString × Bool
  | (i, s, ok) =>
    if !ok then ([], ok)
    else if s.length > 2 then (s.drop 2, ok)
    else if i < E.Args.length then (E.Args.getD i [], ok)
    else ([], ok)

/-- The method `optss`: the raw value of the flag and whether the flag was found. -/
def Usage.optss (u : Usage) (E : Env) (flag : Int) : Run (GoString × Bool) :=
  (optssLoop E u flag (E.Args.drop 1) 1 [] ⟨[], []⟩).map (optssResult E)

/-! ## The decoders -/

/-- The `switch` of `OptS` on a found raw value `s`. -/
def optsValue (s dflt : GoString) : GoString :=
  if s.length = 0 then dflt
  else if s.getD 0 0 = 45 then dflt
  else if s.length < 2 then s
  else if s.getD 0 0 = 92 ∧ s.getD 1 0 = 45 then s.drop 1
  else s

/-- The method `OptS`. -/
def Usage.OptS (u : Usage) (E : Env) (flag : Int) (dflt : GoString) : Run GoString :=
  (u.optss E flag).map fun r => if r.2 then optsValue r.1 dflt else dflt

/-- Modelled from the spec: the size in bits of the platform type `int`, `strconv.IntSize`
of the Go standard library, here that of a 64-bit platform. -/
def intSize : Nat := 64

/-- Modelled from the spec: the digit loop of `strconv.Atoi` (Go standard library),
`n = n*10 + int(ch - 48)`, with a syntax error at the first byte that is not a decimal
digit. -/
def atoiDigits : GoString → Nat → Option Nat
  | [], n => some n
  | ch :: t, n => if 48 ≤ ch ∧ ch ≤ 57 then atoiDigits t (n * 10 + (ch - 48)) else none

/-- Modelled from the spec: `strconv.Atoi` of the Go standard library, which is not part of
the repository ("a standard library function that parses a decimal-or-error from a string").
An optional sign, then at least one decimal digit and nothing else; `none` stands for a
non-nil error, which is a syntax error or a value outside the range of `int`. -/
def Atoi (s : GoString) : Option Int :=
  match s with
  | [] => none
  | c :: t =>
    let neg := decide (c = 45)
    let ds := if c = 45 ∨ c = 43 then t else s
    if ds.length < 1 then none
    else
      match atoiDigits ds 0 with
      | none => none
      | some un =>
        if neg then (if un ≤ 2 ^ (intSize - 1) then some (-(un : Int)) else none)
        else (if un < 2 ^ (intSize - 1) then some (un : Int) else none)

/-- The method `OptN`. -/
def Usage.OptN (u : Usage) (E : Env) (flag : Int) (dflt : Int) : Run Int :=
  (u.optss E flag).map fun r =>
    if r.2 then
      match Atoi r.1 with
      | none => dflt
      | some n => n
    else dflt

/-- The method `OptF`.  The type `F` of `float64` values and `ParseFloat`, the function
`fun s => strconv.ParseFloat(s, 32)` of the standard library (`none` for a non-nil error),
are kept abstract. -/
def Usage.OptF {F : Type} (ParseFloat : GoString → Option F) (u : Usage) (E : Env)
    (flag : Int) (dflt : F) : Run F :=
  (u.optss E flag).map fun r =>
    if r.2 then
      match ParseFloat r.1 with
      | none => dflt
      | some x => x
    else dflt

/-- The method `OptB`. -/
def Usage.OptB (u : Usage) (E : Env) (flag : Int) : Run Bool :=
  (u.optss E flag).map fun r => r.2

/-! ## The bit flags -/

/-- Modelled from the spec: `strings.Split(s, ",")` of the Go standard library, which is not
part of the repository ("each comma-separated entry"); `sep` is the byte of the comma.  The
result lists the pieces of `s` between separators; a string without separator, the empty
one included, gives one piece. -/
def Split (s : GoString) (sep : Nat) : List GoString :=
  match s with
  | [] => [[]]
  | c :: t =>
    if c = sep then [] :: Split t sep
    else
      match Split t sep with
      | [] => [[c]]
      | p :: ps => (c :: p) :: ps

/-- The complement `^x` of a `uint32`. -/
def not32 (x : Nat) : Nat := (2 ^ 32 - 1) ^^^ x

/-- The inner loop of `OptCSF` over the table `allf`, on the state `(r, sb, sm)`. -/
def csfTable (fl : GoString) (no : Bool) : List GoString → Nat × Nat × Nat → Nat × Nat × Nat
  | [], st => st
  | tf :: rest, (r, sb, sm) =>
    let r1 := if fl = tf ∧ no = true then r &&& sm else if fl = tf then r ||| sb else r
    let sb1 := (sb <<< 1) % 2 ^ 32
    csfTable fl no rest (r1, sb1, not32 sb1)

/-- The body of the outer loop of `OptCSF` for one entry `fl` of the raw value. -/
def csfEntry (allf : List GoString) (r : Nat) (fl : GoString) : Nat :=
  let no := decide (fl.length > 2 ∧ fl.take 3 = [110, 111, 45])
  let fl1 := if no then fl.drop 3 else fl
  (csfTable fl1 no allf (r, 1, not32 1)).1

/-- The method `OptCSF`; `current` and the result are `uint32` values. -/
def Usage.OptCSF (u : Usage) (E : Env) (flag : Int) (current : Nat) (all : GoString) :
    Run Nat :=
  (u.optss E flag).map fun r =>
    if !r.2 then current
    else (Split r.1 44).foldl (csfEntry (Split all 44)) current

/-! ## Vocabulary of the statements -/

/-- Token `j` of `os.Args`; the empty string when `j` is not an index of the sequence. -/
def Env.tok (E : Env) (j : Nat) : GoString := E.Args.getD j []

/-- The token has length at least 2, begins with `-` and has the flag, as the byte
`byte(flag)`, for second byte. -/
def isFlagTok (flag : Int) (t : GoString) : Prop :=
  2 ≤ t.length ∧ t.getD 0 0 = 45 ∧ t.getD 1 0 = byte flag

/-- A terminator: the token has length at least 2 and begins with `--`. -/
def isTerm (t : GoString) : Prop :=
  2 ≤ t.length ∧ t.getD 0 0 = 45 ∧ t.getD 1 0 = 45

/-- A help token: the token has length at least 2 and begins with `-h`. -/
def isHelp (t : GoString) : Prop :=
  2 ≤ t.length ∧ t.getD 0 0 = 45 ∧ t.getD 1 0 = 104

instance (flag : Int) (t : GoString) : Decidable (isFlagTok flag t) := by
  unfold isFlagTok; infer_instance

instance (t : GoString) : Decidable (isTerm t) := by
  unfold isTerm; infer_instance

instance (t : GoString) : Decidable (isHelp t) := by
  unfold isHelp; infer_instance

/-- The scan for `flag` meets a help token: a help token that does not match the flag stands
at an index `j ≥ 1`, and no token at an index in `1..j-1` matches the flag or is a
terminator. -/
def helpReached (E : Env) (flag : Int) : Prop :=
  ∃ j, 1 ≤ j ∧ j < E.Args.length ∧ isHelp (E.tok j) ∧ ¬ isFlagTok flag (E.tok j) ∧
    ∀ k, 1 ≤ k → k < j → ¬ isFlagTok flag (E.tok k) ∧ ¬ isTerm (E.tok k)

/-- A token over which the loop of `optss` steps and goes on. -/
def skipped (E : Env) (flag : Int) (t : GoString) : Prop :=
  ¬ isFlagTok flag t ∧ ¬ isTerm t ∧ (isHelp t → E.Exit = .returning)

/-- What holds of the outcome of the loop of `optss` started at index `i`. -/
def scanPost (E : Env) (flag : Int) (i : Nat) : Option (Nat × GoString × Bool) → Prop
  | some (i1, s1, true) =>
    i < i1 ∧ i1 ≤ E.Args.length ∧ s1 = E.tok (i1 - 1) ∧ isFlagTok flag s1 ∧
      ∀ j, i ≤ j → j < i1 - 1 → skipped E flag (E.tok j)
  | some (i1, _, false) =>
    i ≤ i1 ∧ (∀ j, i ≤ j → j < i1 → j < E.Args.length → skipped E flag (E.tok j)) ∧
      (i1 < E.Args.length → isTerm (E.tok i1) ∧ ¬ isFlagTok flag (E.tok i1))
  | none =>
    E.Exit = .osExit ∧ ∃ j, i ≤ j ∧ j < E.Args.length ∧ isHelp (E.tok j) ∧
      ¬ isFlagTok flag (E.tok j) ∧
      ∀ k, i ≤ k → k < j → ¬ isFlagTok flag (E.tok k) ∧ ¬ isTerm (E.tok k)

/-- The decimal digits of `n`, most significant first, put before `acc`; `fuel` bounds their
number. -/
def decimalAux : Nat → Nat → GoString → GoString
  | 0, _, acc => acc
  | fuel + 1, n, acc =>
    let acc1 := (48 + n % 10) :: acc
    if n / 10 = 0 then acc1 else decimalAux fuel (n / 10) acc1

/-- The base-10 rendering of a natural number. -/
def decimalNat (n : Nat) : GoString := decimalAux (n + 1) n []

/-- The base-10 rendering of an integer, with a leading `-` when it is negative. -/
def decimal (n : Int) : GoString :=
  if n < 0 then 45 :: decimalNat n.natAbs else decimalNat n.toNat

/-- The string is a base-10 integer: an optional sign `+` or `-`, then one or more decimal
digits and nothing else. -/
def isBase10 (s : GoString) : Prop :=
  ∃ ds : GoString, ds ≠ [] ∧ (∀ c ∈ ds, 48 ≤ c ∧ c ≤ 57) ∧
    (s = ds ∨ s = 45 :: ds ∨ s = 43 :: ds)

/-- The default value of the package variable `Exit`. -/
def Exit : ExitHook := .osExit

/-- The default value of the package variable `HelpLead`. -/
def HelpLead : GoString := str "purpose, usage & options:\n"

/-- The process state of a program that leaves the package variables alone. -/
def Env.ofArgs (args : List String) : Env := ⟨args.map str, Mopt.Exit, Mopt.HelpLead⟩

/-- The process state under the tests, whose `init` replaces `Exit` by a function that
stores the status and returns. -/
def Env.test (args : List String) : Env := ⟨args.map str, .returning, Mopt.HelpLead⟩

/-- The token neither matches the flag nor is a terminator: the scan goes on after it. -/
def stepsOver (flag : Int) (t : GoString) : Bool :=
  decide (¬ isFlagTok flag t ∧ ¬ isTerm t)

/-- The token is a help token, as a Boolean. -/
def helpTok (t : GoString) : Bool :=
  decide (isHelp t)

/-- The tokens over which the scan for `flag` steps and goes on: the tokens at the indices
`1, 2, ...` before the first token that matches the flag or is a terminator. -/
def stepped (E : Env) (flag : Int) : List GoString :=
  (E.Args.drop 1).takeWhile (stepsOver flag)

/-- The number of help tokens that the scan for `flag` meets. -/
def helpsMet (E : Env) (flag : Int) : Nat :=
  (stepped E flag).countP helpTok

/-- The conversion `string(c)` of a rune `c`: the UTF-8 encoding of the code point, and that
of U+FFFD when `c` is not a valid code point. -/
def runeString (c : Int) : GoString :=
  if 0 ≤ c ∧ c ≤ 0x10FFFF ∧ ¬ (0xD800 ≤ c ∧ c ≤ 0xDFFF) then utf8 c.toNat
  else [0xEF, 0xBF, 0xBD]

/-- The loop of `OptL` over `r = os.Args[1:]`.  `rest` is `r[i:]`, so its head is `r[i]` and
the loop condition `i < len(r)` holds exactly when `rest` is not empty; `lo` is the marker.
The result is `inl` of the slice returned from inside the loop, or `inr` of the marker with
which the loop is left. -/
def optlLoop (r : List GoString) : List GoString → Nat → Nat → List GoString ⊕ Nat
  | [], _, lo => .inr lo
  | a :: rest, i, lo =>
    if a.length < 2 ∨ a.getD 0 0 ≠ 45 then
      optlLoop r rest (i + 1) lo
    else if a.getD 1 0 = 45 ∧ i < r.length - 1 then
      .inl (r.drop (i + 1))
    else
      optlLoop r rest (i + 1) (i + 1)

/-- The method `OptL`.  `none` is the run-time panic of the slice expression `os.Args[1:]`
on an empty `os.Args`. -/
def Usage.OptL (_u : Usage) (E : Env) : Option (List GoString) :=
  if E.Args.length < 1 then none
  else
    match optlLoop (E.Args.drop 1) (E.Args.drop 1) 0 0 with
    | .inl res => some res
    | .inr lo => if lo < (E.Args.drop 1).length then some ((E.Args.drop 1).drop lo) else some []

/-- The token has length at least 2 and begins with `-`. -/
def isDash (t : GoString) : Prop :=
  2 ≤ t.length ∧ t.getD 0 0 = 45

instance (t : GoString) : Decidable (isDash t) := by
  unfold isDash; infer_instance

/-- The test `no` of `OptCSF` on an entry: `len(fl) > 2 && fl[:3] == "no-"`. -/
def entryNo (fl : GoString) : Bool :=
  decide (fl.length > 2 ∧ fl.take 3 = [110, 111, 45])

/-- The name that `OptCSF` looks up in the table for an entry: the entry without its first 3
bytes when the test `no` holds, else the entry. -/
def entryName (fl : GoString) : GoString :=
  if entryNo fl then fl.drop 3 else fl

/-- The string begins with `no-`. -/
def beginsNo (s : GoString) : Prop :=
  ∃ m, s = [110, 111, 45] ++ m

/-- The value of `sb` in the inner loop of `OptCSF` at the table index `o`: the `uint32`
value 1 shifted left `o` times. -/
def sbAt (o : Nat) : Nat := 2 ^ o % 2 ^ 32

/-! ## The code with checked index and slice expressions

The definitions above read `s[k]` with `List.getD` and `s[k:]` with `List.drop`, which are
total.  Here every index and slice expression of the source is evaluated as the Go run time
does, with a panic when it is out of range, and the loops run on their counter `i`. -/

/-- The outcome of checked code: `ok` when it ran to its end, `panic` when an index or slice
expression was out of range, `fuel` when the bound on the iterations of a loop was too
small. -/
inductive Chk (α : Type) where
  | ok (a : α)
  | panic
  | fuel
  deriving DecidableEq, Repr

/-- Sequencing of checked code. -/
def Chk.bind {α β : Type} (x : Chk α) (f : α → Chk β) : Chk β :=
  match x with
  | .ok a => f a
  | .panic => .panic
  | .fuel => .fuel

/-- The operator `&&`: the right operand is evaluated only when the left one is true. -/
def Chk.and (a b : Chk Bool) : Chk Bool :=
  a.bind fun x => if x then b else .ok false

/-- The operator `||`: the right operand is evaluated only when the left one is false. -/
def Chk.or (a b : Chk Bool) : Chk Bool :=
  a.bind fun x => if x then .ok true else b

/-- The index expression `s[k]`: a panic unless `k < len(s)`. -/
def index {α : Type} (s : List α) (k : Nat) : Chk α :=
  match s.get? k with
  | some a => .ok a
  | none => .panic

/-- The slice expression `s[k:]`: a panic unless `k ≤ len(s)`. -/
def sliceFrom {α : Type} (s : List α) (k : Nat) : Chk (List α) :=
  if k ≤ s.length then .ok (s.drop k) else .panic

/-- The slice expression `s[:k]`: a panic unless `k ≤ len(s)`. -/
def sliceTo {α : Type} (s : List α) (k : Nat) : Chk (List α) :=
  if k ≤ s.length then .ok (s.take k) else .panic

/-- The comparison `s[k] == c`. -/
def byteIs (s : GoString) (k c : Nat) : Chk Bool :=
  (index s k).bind fun b => .ok (decide (b = c))

/-- Continue a run with checked code on its value. -/
def Run.mapChk {α β : Type} (f : α → Chk β) (r : Run α) : Chk (Run β) :=
  match r.ret with
  | none => .ok ⟨none, r.trace⟩
  | some a => (f a).bind fun b => .ok ⟨some b, r.trace⟩

namespace Checked

/-- The `args:` loop of `optss` on its counter `i`, for at most `fuel` tests of the loop
condition. -/
def optssLoop (E : Env) (u : Usage) (flag : Int) :
    Nat → Nat → GoString → Trace → Chk (Run (Nat × GoString × Bool))
  | 0, _, _, _ => .fuel
  | fuel + 1, i, s0, tr =>
    if i < E.Args.length then
      (index E.Args i).bind fun s =>
      if s.length < 2 then
        optssLoop E u flag fuel (i + 1) s tr
      else
        ((byteIs s 0 45).and (byteIs s 1 (byte flag))).bind fun c2 =>
        if c2 then
          .ok ⟨some (i + 1, s, true), tr⟩
        else
          ((byteIs s 0 45).and (byteIs s 1 104)).bind fun c3 =>
          if c3 then
            (index E.Args 0).bind fun prog =>
            match E.Exit with
            | .osExit =>
              .ok ⟨none, ⟨tr.printed ++ [[prog, E.HelpLead, u]], tr.exits ++ [0]⟩⟩
            | .returning =>
              optssLoop E u flag fuel (i + 1) s
                ⟨tr.printed ++ [[prog, E.HelpLead, u]], tr.exits ++ [0]⟩
          else
            ((byteIs s 0 45).and (byteIs s 1 45)).bind fun c4 =>
            if c4 then
              .ok ⟨some (i, s, false), tr⟩
            else
              optssLoop E u flag fuel (i + 1) s tr
    else
      .ok ⟨some (i, s0, false), tr⟩

/-- The final `switch` of `optss`. -/
def optssResult (E : Env) : Nat × GoString × Bool → Chk (GoString × Bool)
  | (i, s, ok) =>
    if !ok then .ok ([], ok)
    else if s.length > 2 then (sliceFrom s 2).bind fun v => .ok (v, ok)
    else if i < E.Args.length then (index E.Args i).bind fun v => .ok (v, ok)
    else .ok ([], ok)

/-- The method `optss`. -/
def optss (u : Usage) (E : Env) (flag : Int) : Chk (Run (GoString × Bool)) :=
  (optssLoop E u flag (E.Args.length + 1) 1 [] ⟨[], []⟩).bind (Run.mapChk (optssResult E))

/-- The `switch` of `OptS` on a found raw value. -/
def optsValue (s dflt : GoString) : Chk GoString :=
  if s.length = 0 then .ok dflt
  else
    (byteIs s 0 45).bind fun c2 =>
    if c2 then .ok dflt
    else if s.length < 2 then .ok s
    else
      ((byteIs s 0 92).and (byteIs s 1 45)).bind fun c4 =>
      if c4 then sliceFrom s 1 else .ok s

/-- The method `OptS`. -/
def OptS (u : Usage) (E : Env) (flag : Int) (dflt : GoString) : Chk (Run GoString) :=
  (optss u E flag).bind
    (Run.mapChk fun r => if r.2 then optsValue r.1 dflt else .ok dflt)

/-- The method `OptN`. -/
def OptN (u : Usage) (E : Env) (flag : Int) (dflt : Int) : Chk (Run Int) :=
  (optss u E flag).bind
    (Run.mapChk fun r =>
      .ok (if r.2 then
        match Atoi r.1 with
        | none => dflt
        | some n => n
      else dflt))

/-- The method `OptB`. -/
def OptB (u : Usage) (E : Env) (flag : Int) : Chk (Run Bool) :=
  (optss u E flag).bind (Run.mapChk fun r => .ok r.2)

/-- The body of the outer loop of `OptCSF` for one entry `fl`. -/
def csfEntry (allf : List GoString) (r : Nat) (fl : GoString) : Chk Nat :=
  ((Chk.ok (decide (fl.length > 2))).and
    ((sliceTo fl 3).bind fun p => .ok (decide (p = [110, 111, 45])))).bind fun no =>
  (if no then sliceFrom fl 3 else .ok fl).bind fun fl1 =>
  .ok (csfTable fl1 no allf (r, 1, not32 1)).1

/-- The outer loop of `OptCSF` over the entries of the raw value. -/
def csfEntries (allf : List GoString) : List GoString → Nat → Chk Nat
  | [], r => .ok r
  | fl :: rest, r => (csfEntry allf r fl).bind (csfEntries allf rest)

/-- The method `OptCSF`. -/
def OptCSF (u : Usage) (E : Env) (flag : Int) (current : Nat) (all : GoString) :
    Chk (Run Nat) :=
  (optss u E flag).bind
    (Run.mapChk fun r =>
      if !r.2 then .ok current
      else csfEntries (Split all 44) (Split r.1 44) current)

/-- The loop of `OptL` on its counter `i`, for at most `fuel` tests of the loop condition. -/
def optlLoop (r : List GoString) : Nat → Nat → Nat → Chk (List GoString ⊕ Nat)
  | 0, _, _ => .fuel
  | fuel + 1, i, lo =>
    if i < r.length then
      (((index r i).bind fun t => .ok (decide (t.length < 2))).or
        ((index r i).bind fun t => (index t 0).bind fun c => .ok (decide (c ≠ 45)))).bind
      fun c1 =>
      if c1 then
        optlLoop r fuel (i + 1) lo
      else
        (((index r i).bind fun t => byteIs t 1 45).and
          (.ok (decide (i < r.length - 1)))).bind fun c2 =>
        if c2 then (sliceFrom r (i + 1)).bind fun v => .ok (.inl v)
        else optlLoop r fuel (i + 1) (i + 1)
    else
      .ok (.inr lo)

/-- The method `OptL`. -/
def OptL (_u : Usage) (E : Env) : Chk (List GoString) :=
  (sliceFrom E.Args 1).bind fun r =>
  (optlLoop r (r.length + 1) 0 0).bind fun x =>
  match x with
  | .inl v => .ok v
  | .inr lo => if lo < r.length then sliceFrom r lo else .ok []

end Checked

/-! ## The scanner: loop invariant -/

theorem Run.map_ret {α β : Type} (f : α → β) (r : Run α) : (r.map f).ret = r.ret.map f := rfl

theorem Run.map_trace {α β : Type} (f : α → β) (r : Run α) : (r.map f).trace = r.trace := rfl

theorem drop_cons_inv (E : Env) {a : GoString} {rest : List GoString} {i : Nat}
    (h : a :: rest = E.Args.drop i) :
    i < E.Args.length ∧ a = E.tok i ∧ rest = E.Args.drop (i + 1) := by
  have hi : i < E.Args.length := by
    by_contra hc
    rw [List.drop_eq_nil_of_le (by omega)] at h
    exact List.cons_ne_nil _ _ h
  rw [List.drop_eq_getElem_cons hi] at h
  obtain ⟨h1, h2⟩ := List.cons.inj h
  refine ⟨hi, ?_, h2⟩
  rw [h1]
  simp [Env.tok, List.getD_eq_getElem?_getD, List.getElem?_eq_getElem hi]

theorem scanPost_step (E : Env) (flag : Int) (i : Nat) (r : Option (Nat × GoString × Bool))
    (hs : skipped E flag (E.tok i)) (h : scanPost E flag (i + 1) r) : scanPost E flag i r := by
  have key : ∀ j, i ≤ j → j = i ∨ i + 1 ≤ j := fun j hj => by omega
  match r, h with
  | some (i1, s1, true), h =>
    obtain ⟨h1, h2, h3, h4, h5⟩ := h
    refine ⟨by omega, h2, h3, h4, fun j hj hj1 => ?_⟩
    rcases key j hj with rfl | hj2
    · exact hs
    · exact h5 j hj2 hj1
  | some (i1, s1, false), h =>
    obtain ⟨h1, h2, h3⟩ := h
    refine ⟨by omega, fun j hj hj1 hj3 => ?_, h3⟩
    rcases key j hj with rfl | hj2
    · exact hs
    · exact h2 j hj2 hj1 hj3
  | none, h =>
    obtain ⟨h1, j, h2, h3, h4, h5, h6⟩ := h
    refine ⟨h1, j, by omega, h3, h4, h5, fun k hk hk1 => ?_⟩
    rcases key k hk with rfl | hk2
    · exact ⟨hs.1, hs.2.1⟩
    · exact h6 k hk2 hk1

theorem optssLoop_post (E : Env) (u : Usage) (flag : Int) :
    ∀ (rest : List GoString) (i : Nat) (s : GoString) (tr : Trace), rest = E.Args.drop i →
      scanPost E flag i (optssLoop E u flag rest i s tr).ret := by
  intro rest
  induction rest with
  | nil =>
    intro i s tr h
    have hlen : E.Args.length ≤ i := by
      by_contra hc
      have := List.drop_eq_getElem_cons (show i < E.Args.length by omega)
      rw [← h] at this
      exact List.cons_ne_nil _ _ this.symm
    simp only [optssLoop, scanPost]
    exact ⟨le_refl _, fun j h1 h2 => by omega, fun h1 => by omega⟩
  | cons a rest ih =>
    intro i s tr h
    obtain ⟨hi, ha, hrest⟩ := drop_cons_inv E h
    unfold optssLoop
    simp only []
    by_cases c1 : a.length < 2
    · rw [if_pos c1]
      refine scanPost_step E flag i _ ?_ (ih (i + 1) a tr hrest)
      rw [← ha]
      exact ⟨fun hc => by have := hc.1; omega, fun hc => by have := hc.1; omega,
        fun hc => by have := hc.1; omega⟩
    · rw [if_neg c1]
      by_cases c2 : a.getD 0 0 = 45 ∧ a.getD 1 0 = byte flag
      · rw [if_pos c2]
        refine ⟨by omega, by omega, by simpa using ha, ⟨by omega, c2.1, c2.2⟩,
          fun j h1 h2 => by omega⟩
      · rw [if_neg c2]
        have nf : ¬ isFlagTok flag a := fun hc => c2 ⟨hc.2.1, hc.2.2⟩
        by_cases c3 : a.getD 0 0 = 45 ∧ a.getD 1 0 = 104
        · rw [if_pos c3]
          have hh : isHelp a := ⟨by omega, c3.1, c3.2⟩
          have nt : ¬ isTerm a := fun hc => by have := hc.2.2; have := c3.2; omega
          cases hx : E.Exit with
          | osExit =>
            exact ⟨hx, i, le_refl _, hi, ha ▸ hh, ha ▸ nf, fun k h1 h2 => by omega⟩
          | returning =>
            refine scanPost_step E flag i _ ?_ (ih (i + 1) a _ hrest)
            rw [← ha]
            exact ⟨nf, nt, fun _ => hx⟩
        · rw [if_neg c3]
          by_cases c4 : a.getD 0 0 = 45 ∧ a.getD 1 0 = 45
          · rw [if_pos c4]
            refine ⟨le_refl _, fun j h1 h2 => by omega, fun _ => ?_⟩
            rw [← ha]
            exact ⟨⟨by omega, c4.1, c4.2⟩, nf⟩
          · rw [if_neg c4]
            refine scanPost_step E flag i _ ?_ (ih (i + 1) a tr hrest)
            rw [← ha]
            exact ⟨nf, fun hc => c4 ⟨hc.2.1, hc.2.2⟩, fun hc => absurd ⟨hc.2.1, hc.2.2⟩ c3⟩

/-! ## The scanner: what it reports -/

theorem optssResult_snd (E : Env) (i : Nat) (s : GoString) (ok : Bool) :
    (optssResult E (i, s, ok)).2 = ok := by
  unfold optssResult
  cases ok
  · simp
  · simp only [Bool.not_true, Bool.false_eq_true, if_false]
    split_ifs <;> rfl

theorem optssResult_false (E : Env) (i : Nat) (s : GoString) :
    optssResult E (i, s, false) = ([], false) := by
  simp [optssResult]

theorem optss_post (E : Env) (u : Usage) (flag : Int) :
    scanPost E flag 1 (optssLoop E u flag (E.Args.drop 1) 1 [] ⟨[], []⟩).ret :=
  optssLoop_post E u flag _ 1 [] _ rfl

/-- When the exit hook returns or no help token is met, the scanner returns; it reports the
flag found exactly when a matching token stands before every terminator, and its raw value
is empty when the flag is not found. -/
theorem optss_spec (E : Env) (u : Usage) (flag : Int)
    (hc : E.Exit = .returning ∨ ¬ helpReached E flag) :
    ∃ raw ok, (Usage.optss u E flag).ret = some (raw, ok) ∧
      (ok = true ↔ ∃ i, 1 ≤ i ∧ i < E.Args.length ∧ isFlagTok flag (E.tok i) ∧
        ∀ j, 1 ≤ j → j < i → ¬ isTerm (E.tok j)) ∧
      (ok = false → raw = []) := by
  have post := optss_post E u flag
  unfold Usage.optss
  rw [Run.map_ret]
  match hr : (optssLoop E u flag (E.Args.drop 1) 1 [] ⟨[], []⟩).ret, post with
  | none, post =>
    exfalso
    obtain ⟨hx, j, h1, h2, h3, h4, h5⟩ := post
    rcases hc with hc | hc
    · rw [hx] at hc; exact ExitHook.noConfusion hc
    · exact hc ⟨j, h1, h2, h3, h4, h5⟩
  | some (i1, s1, true), post =>
    obtain ⟨h1, h2, h3, h4, h5⟩ := post
    refine ⟨(optssResult E (i1, s1, true)).1, true, ?_, ?_, fun h => Bool.noConfusion h⟩
    · have := optssResult_snd E i1 s1 true
      simp only [Option.map_some', Option.some.injEq]
      exact Prod.ext rfl this
    · refine ⟨fun _ => ⟨i1 - 1, by omega, by omega, h3 ▸ h4, fun j hj1 hj2 => ?_⟩, fun _ => rfl⟩
      exact (h5 j hj1 hj2).2.1
  | some (i1, s1, false), post =>
    obtain ⟨h1, h2, h3⟩ := post
    refine ⟨[], false, by simp [optssResult_false], ?_, fun _ => rfl⟩
    refine ⟨fun h => Bool.noConfusion h, fun ⟨i, hi1, hi2, hi3, hi4⟩ => ?_⟩
    exfalso
    rcases Nat.lt_trichotomy i i1 with hlt | heq | hgt
    · exact (h2 i hi1 hlt hi2).1 hi3
    · subst heq; exact (h3 hi2).2 hi3
    · exact hi4 i1 h1 hgt (h3 (by omega)).1

/-- C1 (as amended). If no token at an index `≥ 1` has length at least 2, begins with `-` and
has the flag (the byte `byte(flag)`) for second byte, and if moreover the exit hook returns
or the scan meets no help token, then `OptS`, `OptN` and `OptF` return their default,
`OptCSF` returns `current` unchanged and `OptB` returns false. -/
theorem C1_absent_flag_gives_default {F : Type} (ParseFloat : GoString → Option F)
    (u : Usage) (E : Env) (flag : Int) (ds : GoString) (dn : Int) (df : F)
    (current : Nat) (all : GoString)
    (habs : ∀ i, 1 ≤ i → i < E.Args.length → ¬ isFlagTok flag (E.tok i))
    (hhelp : E.Exit = .returning ∨ ¬ helpReached E flag) :
    (Usage.OptS u E flag ds).ret = some ds ∧
    (Usage.OptN u E flag dn).ret = some dn ∧
    (Usage.OptF ParseFloat u E flag df).ret = some df ∧
    (Usage.OptCSF u E flag current all).ret = some current ∧
    (Usage.OptB u E flag).ret = some false := by
  obtain ⟨raw, ok, hret, hiff, _⟩ := optss_spec E u flag hhelp
  have hok : ok = false := by
    cases ok with
    | false => rfl
    | true =>
      obtain ⟨i, h1, h2, h3, _⟩ := hiff.mp rfl
      exact absurd h3 (habs i h1 h2)
  subst hok
  simp [Usage.OptS, Usage.OptN, Usage.OptF, Usage.OptCSF, Usage.OptB, Run.map_ret, hret]

/-- C1, witness: the arguments of `TestHelp` under the hook of the tests, flag `x`. -/
theorem C1_absent_flag_gives_default_witness :
    (∀ i, 1 ≤ i → i < (Env.test ["test", "-h", "subtopic"]).Args.length →
      ¬ isFlagTok 120 ((Env.test ["test", "-h", "subtopic"]).tok i)) ∧
    ((Env.test ["test", "-h", "subtopic"]).Exit = .returning ∨
      ¬ helpReached (Env.test ["test", "-h", "subtopic"]) 120) ∧
    (Usage.OptS (str "help") (Env.test ["test", "-h", "subtopic"]) 120 (str "xxx")).ret
      = some (str "xxx") ∧
    (Usage.OptN (str "help") (Env.test ["test", "-h", "subtopic"]) 120 333).ret = some 333 ∧
    (Usage.OptF (fun _ => (none : Option Int)) (str "help")
      (Env.test ["test", "-h", "subtopic"]) 120 7).ret = some 7 ∧
    (Usage.OptCSF (str "help") (Env.test ["test", "-h", "subtopic"]) 120 5 (str "x,y,z")).ret
      = some 5 ∧
    (Usage.OptB (str "help") (Env.test ["test", "-h", "subtopic"]) 120).ret = some false :=
  have habs : ∀ i, 1 ≤ i → i < (Env.test ["test", "-h", "subtopic"]).Args.length →
      ¬ isFlagTok 120 ((Env.test ["test", "-h", "subtopic"]).tok i) := by
    intro i h1 h2
    have h3 : i < 3 := h2
    interval_cases i <;> decide
  ⟨habs, Or.inl rfl,
    C1_absent_flag_gives_default (fun _ => (none : Option Int)) (str "help")
      (Env.test ["test", "-h", "subtopic"]) 120 (str "xxx") 333 7 5 (str "x,y,z")
      habs (Or.inl rfl)⟩

/-- C1, counterexample: on `prog -h` with the default `Exit`, no token matches the flag `x`,
yet `OptS` does not return its default: the scanner prints the usage and `os.Exit(0)` ends
the process inside the call. -/
theorem C1_counterexample :
    (∀ i, 1 ≤ i → i < (Env.ofArgs ["prog", "-h"]).Args.length →
      ¬ isFlagTok 120 ((Env.ofArgs ["prog", "-h"]).tok i)) ∧
    (Usage.OptS (str "usage") (Env.ofArgs ["prog", "-h"]) 120 (str "dflt")).ret
      ≠ some (str "dflt") ∧
    Usage.OptS (str "usage") (Env.ofArgs ["prog", "-h"]) 120 (str "dflt")
      = ⟨none, ⟨[[str "prog", HelpLead, str "usage"]], [0]⟩⟩ := by
  refine ⟨?_, by decide, by decide⟩
  intro i h1 h2
  have h3 : i < 2 := h2
  interval_cases i
  decide

/-- C2 (as amended). When the exit hook returns or the scan meets no help token, `OptB`
returns, and it returns true if and only if some token at an index `i ≥ 1` has length at
least 2, begins with `-` and has the flag (the byte `byte(flag)`) for second byte, while no
token at an index in `1..i-1` is a terminator. -/
theorem C2_OptB_true_iff_match_before_terminator (u : Usage) (E : Env) (flag : Int)
    (hhelp : E.Exit = .returning ∨ ¬ helpReached E flag) :
    ∃ b, (Usage.OptB u E flag).ret = some b ∧
      (b = true ↔ ∃ i, 1 ≤ i ∧ i < E.Args.length ∧ isFlagTok flag (E.tok i) ∧
        ∀ j, 1 ≤ j → j < i → ¬ isTerm (E.tok j)) := by
  obtain ⟨raw, ok, hret, hiff, _⟩ := optss_spec E u flag hhelp
  exact ⟨ok, by simp [Usage.OptB, Run.map_ret, hret], hiff⟩

/-- C2, witness: the arguments of `TestTerminator` with the default `Exit`; the flag `d`
directly before the terminator is present, the flag `e` after it is absent. -/
theorem C2_OptB_true_iff_match_before_terminator_witness :
    ((Env.ofArgs ["test", "-astr", "-n12", "-d", "--", "-e", "end"]).Exit = .returning ∨
      ¬ helpReached (Env.ofArgs ["test", "-astr", "-n12", "-d", "--", "-e", "end"]) 100) ∧
    (∃ b, (Usage.OptB (str "help")
        (Env.ofArgs ["test", "-astr", "-n12", "-d", "--", "-e", "end"]) 100).ret = some b ∧
      (b = true ↔ ∃ i, 1 ≤ i ∧
        i < (Env.ofArgs ["test", "-astr", "-n12", "-d", "--", "-e", "end"]).Args.length ∧
        isFlagTok 100 ((Env.ofArgs ["test", "-astr", "-n12", "-d", "--", "-e", "end"]).tok i) ∧
        ∀ j, 1 ≤ j → j < i →
          ¬ isTerm ((Env.ofArgs ["test", "-astr", "-n12", "-d", "--", "-e", "end"]).tok j))) ∧
    (Usage.OptB (str "help")
      (Env.ofArgs ["test", "-astr", "-n12", "-d", "--", "-e", "end"]) 100).ret = some true ∧
    (Usage.OptB (str "help")
      (Env.ofArgs ["test", "-astr", "-n12", "-d", "--", "-e", "end"]) 101).ret = some false :=
  have hh : (Env.ofArgs ["test", "-astr", "-n12", "-d", "--", "-e", "end"]).Exit = .returning ∨
      ¬ helpReached (Env.ofArgs ["test", "-astr", "-n12", "-d", "--", "-e", "end"]) 100 := by
    refine Or.inr ?_
    rintro ⟨j, h1, h2, h3, _⟩
    have h4 : j < 7 := h2
    interval_cases j <;> revert h3 <;> decide
  ⟨hh, C2_OptB_true_iff_match_before_terminator (str "help")
    (Env.ofArgs ["test", "-astr", "-n12", "-d", "--", "-e", "end"]) 100 hh,
    by decide, by decide⟩

/-- C2, counterexample: on `prog -h -x` with the default `Exit`, the token `-x` at index 2
matches the flag `x` and no terminator stands before it, yet `OptB` does not return true:
the help token at index 1 ends the process inside the call. -/
theorem C2_counterexample :
    (∃ i, 1 ≤ i ∧ i < (Env.ofArgs ["prog", "-h", "-x"]).Args.length ∧
      isFlagTok 120 ((Env.ofArgs ["prog", "-h", "-x"]).tok i) ∧
      ∀ j, 1 ≤ j → j < i → ¬ isTerm ((Env.ofArgs ["prog", "-h", "-x"]).tok j)) ∧
    (Usage.OptB (str "usage") (Env.ofArgs ["prog", "-h", "-x"]) 120).ret ≠ some true ∧
    Usage.OptB (str "usage") (Env.ofArgs ["prog", "-h", "-x"]) 120
      = ⟨none, ⟨[[str "prog", HelpLead, str "usage"]], [0]⟩⟩ := by
  refine ⟨⟨2, by decide, by decide, by decide, ?_⟩, by decide, by decide⟩
  intro j h1 h2
  interval_cases j
  decide

/-- C3. When the scanner reports the flag found, its raw value comes from the first matching
token, at index `i ≥ 1`: the token without its first 2 bytes when it is longer than 2 bytes,
else the token at index `i+1` when that index exists, else the empty string.  When the
scanner reports the flag not found, the raw value is the empty string. -/
theorem C3_raw_value_of_first_match (u : Usage) (E : Env) (flag : Int) (raw : GoString)
    (ok : Bool) (h : (Usage.optss u E flag).ret = some (raw, ok)) :
    (ok = true → ∃ i, 1 ≤ i ∧ i < E.Args.length ∧ isFlagTok flag (E.tok i) ∧
      (∀ j, 1 ≤ j → j < i → ¬ isFlagTok flag (E.tok j)) ∧
      raw = if (E.tok i).length > 2 then (E.tok i).drop 2
            else if i + 1 < E.Args.length then E.tok (i + 1) else []) ∧
    (ok = false → raw = []) := by
  have post := optss_post E u flag
  unfold Usage.optss at h
  rw [Run.map_ret] at h
  match hr : (optssLoop E u flag (E.Args.drop 1) 1 [] ⟨[], []⟩).ret, post with
  | none, _ => rw [hr] at h; simp at h
  | some (i1, s1, false), _ =>
    rw [hr] at h
    simp only [Option.map_some', optssResult_false, Option.some.injEq, Prod.mk.injEq] at h
    obtain ⟨h1, h2⟩ := h
    exact ⟨fun hc => by rw [← h2] at hc; exact Bool.noConfusion hc, fun _ => h1.symm⟩
  | some (i1, s1, true), post =>
    rw [hr] at h
    obtain ⟨h1, h2, h3, h4, h5⟩ := post
    have hres : optssResult E (i1, s1, true) = (raw, ok) := by simpa using h
    have hok : ok = true := by
      have := optssResult_snd E i1 s1 true
      rw [hres] at this
      exact this
    refine ⟨fun _ => ⟨i1 - 1, by omega, by omega, h3 ▸ h4,
      fun j hj1 hj2 => (h5 j hj1 hj2).1, ?_⟩, fun hc => by rw [hok] at hc; exact Bool.noConfusion hc⟩
    have hi : i1 - 1 + 1 = i1 := by omega
    rw [hi, ← h3]
    have := congrArg Prod.fst hres
    simp only [optssResult, Bool.not_true, Bool.false_eq_true, if_false] at this
    rw [← this]
    unfold Env.tok
    split_ifs <;> rfl

/-- C3, witness: the arguments of `TestString`; the flag `b` stands alone in its token, its
raw value is the next token. -/
theorem C3_raw_value_of_first_match_witness :
    (Usage.optss (str "help") (Env.ofArgs ["test", "-aStringA", "-b", "String2",
      "-c\\-dashed", "-d", "-dashed", "-e", "\\-dashed"]) 98).ret
        = some (str "String2", true) ∧
    ((true = true → ∃ i, 1 ≤ i ∧ i < (Env.ofArgs ["test", "-aStringA", "-b", "String2",
        "-c\\-dashed", "-d", "-dashed", "-e", "\\-dashed"]).Args.length ∧
      isFlagTok 98 ((Env.ofArgs ["test", "-aStringA", "-b", "String2",
        "-c\\-dashed", "-d", "-dashed", "-e", "\\-dashed"]).tok i) ∧
      (∀ j, 1 ≤ j → j < i → ¬ isFlagTok 98 ((Env.ofArgs ["test", "-aStringA", "-b", "String2",
        "-c\\-dashed", "-d", "-dashed", "-e", "\\-dashed"]).tok j)) ∧
      str "String2" = if ((Env.ofArgs ["test", "-aStringA", "-b", "String2",
          "-c\\-dashed", "-d", "-dashed", "-e", "\\-dashed"]).tok i).length > 2
        then ((Env.ofArgs ["test", "-aStringA", "-b", "String2",
          "-c\\-dashed", "-d", "-dashed", "-e", "\\-dashed"]).tok i).drop 2
        else if i + 1 < (Env.ofArgs ["test", "-aStringA", "-b", "String2",
          "-c\\-dashed", "-d", "-dashed", "-e", "\\-dashed"]).Args.length
        then (Env.ofArgs ["test", "-aStringA", "-b", "String2",
          "-c\\-dashed", "-d", "-dashed", "-e", "\\-dashed"]).tok (i + 1) else []) ∧
    (true = false → str "String2" = [])) :=
  ⟨by decide, C3_raw_value_of_first_match (str "help") (Env.ofArgs ["test", "-aStringA", "-b",
    "String2", "-c\\-dashed", "-d", "-dashed", "-e", "\\-dashed"]) 98 (str "String2") true
    (by decide)⟩

/-! ## Attached and separate values -/

theorem byte_ofNat (f : Nat) (hf : f < 256) : byte (f : Int) = f := by
  unfold byte
  omega

theorem optssLoop_attached_eq (E1 E2 : Env) (u : Usage) (flag : Int) (fb : Nat)
    (hfb : byte flag = fb) (v : GoString) (hv : v ≠ []) (post : List GoString)
    (hx : E1.Exit = E2.Exit) (hl : E1.HelpLead = E2.HelpLead)
    (h0 : E1.Args.getD 0 [] = E2.Args.getD 0 []) :
    ∀ (toks : List GoString) (i : Nat) (s : GoString) (tr : Trace),
      (∀ t ∈ toks, ¬ isFlagTok flag t) →
      i + toks.length + 1 < E2.Args.length →
      E2.Args.getD (i + toks.length + 1) [] = v →
      (optssLoop E1 u flag (toks ++ (45 :: fb :: v) :: post) i s tr).map (optssResult E1)
        = (optssLoop E2 u flag (toks ++ [45, fb] :: v :: post) i s tr).map (optssResult E2) := by
  intro toks
  induction toks with
  | nil =>
    intro i s tr _ hlen hget
    have hvl : 0 < v.length := List.length_pos.mpr hv
    simp only [List.length_nil, Nat.add_zero] at hlen hget
    have hn : ¬ (v.length + 1 + 1 < 2) := by omega
    have hn2 : 2 < v.length + 1 + 1 := by omega
    have e1 : optssLoop E1 u flag ((45 :: fb :: v) :: post) i s tr
        = ⟨some (i + 1, 45 :: fb :: v, true), tr⟩ := by
      simp [optssLoop, hfb, hn]
    have e2 : optssLoop E2 u flag ([45, fb] :: v :: post) i s tr
        = ⟨some (i + 1, [45, fb], true), tr⟩ := by
      simp [optssLoop, hfb]
    rw [List.nil_append, List.nil_append, e1, e2]
    simp only [Run.map, Option.map_some', optssResult, Bool.not_true, Bool.false_eq_true,
      if_false, List.length_cons, List.length_nil, gt_iff_lt, if_pos hn2, if_pos hlen, hget,
      List.drop_succ_cons, List.drop_zero]
    simp
  | cons a toks ih =>
    intro i s tr hno hlen hget
    have hlen1 : i + 1 + toks.length + 1 < E2.Args.length := by
      simp only [List.length_cons] at hlen; omega
    have hget1 : E2.Args.getD (i + 1 + toks.length + 1) [] = v := by
      simp only [List.length_cons] at hget
      rw [← hget]; congr 1; omega
    have hno1 : ∀ t ∈ toks, ¬ isFlagTok flag t := fun t ht => hno t (List.mem_cons_of_mem _ ht)
    have ha : ¬ isFlagTok flag a := hno a (List.mem_cons_self _ _)
    simp only [List.cons_append]
    unfold optssLoop
    simp only []
    by_cases c1 : a.length < 2
    · rw [if_pos c1, if_pos c1]; exact ih (i + 1) a tr hno1 hlen1 hget1
    · rw [if_neg c1, if_neg c1]
      have c2 : ¬ (a.getD 0 0 = 45 ∧ a.getD 1 0 = byte flag) :=
        fun hc => ha ⟨by omega, hc.1, hc.2⟩
      rw [if_neg c2, if_neg c2]
      by_cases c3 : a.getD 0 0 = 45 ∧ a.getD 1 0 = 104
      · rw [if_pos c3, if_pos c3, hx, hl, h0]
        cases E2.Exit with
        | osExit => rfl
        | returning => exact ih (i + 1) a _ hno1 hlen1 hget1
      · rw [if_neg c3, if_neg c3]
        by_cases c4 : a.getD 0 0 = 45 ∧ a.getD 1 0 = 45
        · rw [if_pos c4, if_pos c4]
          simp [Run.map, optssResult]
        · rw [if_neg c4, if_neg c4]; exact ih (i + 1) a tr hno1 hlen1 hget1

theorem getD_after_toks (prog : GoString) (toks : List GoString) (a v : GoString)
    (post : List GoString) :
    (prog :: toks ++ [a, v] ++ post).getD (1 + toks.length + 1) [] = v := by
  have e : prog :: toks ++ [a, v] ++ post = (prog :: toks ++ [a]) ++ v :: post := by simp
  have hl : (prog :: toks ++ [a]).length = 1 + toks.length + 1 := by
    simp only [List.length_append, List.length_cons, List.length_nil]; omega
  rw [e, ← hl, List.getD_eq_getElem?_getD, List.getElem?_append_right (le_refl _)]
  simp

theorem optss_attached_eq (u : Usage) (X : ExitHook) (L : GoString) (f : Nat) (hf : f < 128)
    (v : GoString) (hv : v ≠ []) (pre post : List GoString) (hne : pre ≠ [])
    (hpre : ∀ i, 1 ≤ i → i < pre.length → ¬ isFlagTok f (pre.getD i [])) :
    Usage.optss u ⟨pre ++ [[45, f] ++ v] ++ post, X, L⟩ f
      = Usage.optss u ⟨pre ++ [[45, f], v] ++ post, X, L⟩ f := by
  match pre, hne, hpre with
  | prog :: toks, _, hpre =>
    have hno : ∀ t ∈ toks, ¬ isFlagTok f t := by
      intro t ht
      obtain ⟨k, hk, rfl⟩ := List.getElem_of_mem ht
      have := hpre (k + 1) (by omega) (by simp only [List.length_cons]; omega)
      simpa [List.getD_eq_getElem?_getD, List.getElem?_eq_getElem hk] using this
    have key := optssLoop_attached_eq ⟨prog :: toks ++ [[45, f] ++ v] ++ post, X, L⟩
      ⟨prog :: toks ++ [[45, f], v] ++ post, X, L⟩ u f f (byte_ofNat f (by omega)) v hv post
      rfl rfl rfl toks 1 [] ⟨[], []⟩ hno
      (by simp only [List.length_append, List.length_cons, List.length_nil]; omega)
      (getD_after_toks prog toks [45, f] v post)
    unfold Usage.optss
    simpa using key

/-- C4. Attached and space-separated values are equivalent: for an ASCII flag character `f`,
a non-empty value `v`, a non-empty prefix `pre` (the program name and then tokens none of
which, at an index `≥ 1`, matches `f`) and any suffix `post`, the scanner and with it `OptS`,
`OptN`, `OptF`, `OptB` and `OptCSF` give the same outcome on `pre ++ ["-f" ++ v] ++ post` and
on `pre ++ ["-f", v] ++ post`. -/
theorem C4_attached_and_separate_value_agree {F : Type} (ParseFloat : GoString → Option F)
    (u : Usage) (X : ExitHook) (L : GoString) (f : Nat) (hf : f < 128)
    (v : GoString) (hv : v ≠ []) (pre post : List GoString) (hne : pre ≠ [])
    (hpre : ∀ i, 1 ≤ i → i < pre.length → ¬ isFlagTok f (pre.getD i []))
    (ds : GoString) (dn : Int) (df : F) (current : Nat) (all : GoString) :
    Usage.optss u ⟨pre ++ [[45, f] ++ v] ++ post, X, L⟩ f
      = Usage.optss u ⟨pre ++ [[45, f], v] ++ post, X, L⟩ f ∧
    Usage.OptS u ⟨pre ++ [[45, f] ++ v] ++ post, X, L⟩ f ds
      = Usage.OptS u ⟨pre ++ [[45, f], v] ++ post, X, L⟩ f ds ∧
    Usage.OptN u ⟨pre ++ [[45, f] ++ v] ++ post, X, L⟩ f dn
      = Usage.OptN u ⟨pre ++ [[45, f], v] ++ post, X, L⟩ f dn ∧
    Usage.OptF ParseFloat u ⟨pre ++ [[45, f] ++ v] ++ post, X, L⟩ f df
      = Usage.OptF ParseFloat u ⟨pre ++ [[45, f], v] ++ post, X, L⟩ f df ∧
    Usage.OptB u ⟨pre ++ [[45, f] ++ v] ++ post, X, L⟩ f
      = Usage.OptB u ⟨pre ++ [[45, f], v] ++ post, X, L⟩ f ∧
    Usage.OptCSF u ⟨pre ++ [[45, f] ++ v] ++ post, X, L⟩ f current all
      = Usage.OptCSF u ⟨pre ++ [[45, f], v] ++ post, X, L⟩ f current all := by
  have h := optss_attached_eq u X L f hf v hv pre post hne hpre
  refine ⟨h, ?_, ?_, ?_, ?_, ?_⟩
  · unfold Usage.OptS; rw [h]
  · unfold Usage.OptN; rw [h]
  · unfold Usage.OptF; rw [h]
  · unfold Usage.OptB; rw [h]
  · unfold Usage.OptCSF; rw [h]

/-- C4, witness: flag `b` with value `String2` after the prefix `test -aStringA`, before the
suffix `-d -dashed`, under the default `Exit`. -/
theorem C4_attached_and_separate_value_agree_witness :
    (98 < 128) ∧ (str "String2" ≠ []) ∧ ([str "test", str "-aStringA"] ≠ []) ∧
    (∀ i, 1 ≤ i → i < [str "test", str "-aStringA"].length →
      ¬ isFlagTok (98 : Nat) ([str "test", str "-aStringA"].getD i [])) ∧
    Usage.optss (str "help") ⟨[str "test", str "-aStringA"] ++ [[45, 98] ++ str "String2"]
        ++ [str "-d", str "-dashed"], Exit, HelpLead⟩ (98 : Nat)
      = Usage.optss (str "help") ⟨[str "test", str "-aStringA"] ++ [[45, 98], str "String2"]
        ++ [str "-d", str "-dashed"], Exit, HelpLead⟩ (98 : Nat) ∧
    (Usage.OptS (str "help") ⟨[str "test", str "-aStringA"] ++ [[45, 98], str "String2"]
        ++ [str "-d", str "-dashed"], Exit, HelpLead⟩ (98 : Nat) (str "x")).ret
      = some (str "String2") :=
  have hpre : ∀ i, 1 ≤ i → i < [str "test", str "-aStringA"].length →
      ¬ isFlagTok (98 : Nat) ([str "test", str "-aStringA"].getD i []) := by
    intro i h1 h2
    have h3 : i < 2 := h2
    interval_cases i
    decide
  ⟨by decide, by decide, by decide, hpre,
    (C4_attached_and_separate_value_agree (fun _ => (none : Option Int)) (str "help") Exit
      HelpLead 98 (by decide) (str "String2") (by decide) [str "test", str "-aStringA"]
      [str "-d", str "-dashed"] (by decide) hpre (str "x") 0 0 0 (str "x,y")).1,
    by decide⟩

/-! ## Integers -/

theorem atoiDigits_decimalAux : ∀ (fuel n : Nat) (acc : GoString), n < fuel →
    atoiDigits (decimalAux fuel n acc) 0 = atoiDigits acc n := by
  intro fuel
  induction fuel with
  | zero => intro n acc h; omega
  | succ fuel ih =>
    intro n acc h
    unfold decimalAux
    simp only []
    have hd : 48 ≤ 48 + n % 10 ∧ 48 + n % 10 ≤ 57 := by omega
    by_cases h10 : n / 10 = 0
    · rw [if_pos h10]
      simp only [atoiDigits, if_pos hd]
      congr 1; omega
    · rw [if_neg h10, ih (n / 10) _ (by omega)]
      simp only [atoiDigits, if_pos hd]
      congr 1; omega

theorem decimalAux_head : ∀ (fuel n : Nat) (acc : GoString),
    ∃ c rest, decimalAux (fuel + 1) n acc = c :: rest ∧ 48 ≤ c ∧ c ≤ 57 := by
  intro fuel
  induction fuel with
  | zero =>
    intro n acc
    refine ⟨48 + n % 10, acc, ?_, by omega, by omega⟩
    simp [decimalAux]
  | succ fuel ih =>
    intro n acc
    by_cases h10 : n / 10 = 0
    · refine ⟨48 + n % 10, acc, ?_, by omega, by omega⟩
      rw [decimalAux]; simp [h10]
    · obtain ⟨c, rest, h, hc⟩ := ih (n / 10) ((48 + n % 10) :: acc)
      refine ⟨c, rest, ?_, hc⟩
      rw [decimalAux]; simp only [if_neg h10]; exact h

theorem Atoi_decimalNat (m : Nat) (hm : m < 2 ^ (intSize - 1)) :
    Atoi (decimalNat m) = some (m : Int) := by
  obtain ⟨c, rest, h, hc1, hc2⟩ := decimalAux_head m m []
  have hv := atoiDigits_decimalAux (m + 1) m [] (by omega)
  unfold decimalNat at *
  rw [h] at hv
  rw [h]
  have h43 : ¬ (c = 43) := by omega
  have hneg : ¬ (c = 45) := by omega
  simp [Atoi, h43, hneg, hv, atoiDigits, hm]

theorem Atoi_neg_decimalNat (m : Nat) (hm : m ≤ 2 ^ (intSize - 1)) :
    Atoi (45 :: decimalNat m) = some (-(m : Int)) := by
  obtain ⟨c, rest, h, hc1, hc2⟩ := decimalAux_head m m []
  have hv := atoiDigits_decimalAux (m + 1) m [] (by omega)
  unfold decimalNat at *
  simp only [Atoi, true_or, if_true, hv, atoiDigits, decide_True]
  rw [h]
  simp [hm]

theorem Atoi_decimal (n : Int) (hn : -2 ^ (intSize - 1) ≤ n ∧ n < 2 ^ (intSize - 1)) :
    Atoi (decimal n) = some n := by
  unfold decimal
  by_cases h : n < 0
  · rw [if_pos h, Atoi_neg_decimalNat]
    · congr 1; omega
    · have := hn.1
      zify
      rw [abs_of_neg h]
      linarith
  · rw [if_neg h, Atoi_decimalNat]
    · congr 1; omega
    · have := hn.2
      zify
      rw [Int.toNat_of_nonneg (by omega)]
      exact this

theorem optss_attached (u : Usage) (X : ExitHook) (L : GoString) (prog : GoString)
    (flag : Int) (fb : Nat) (hfb : byte flag = fb) (v : GoString) (hv : v ≠ [])
    (post : List GoString) :
    Usage.optss u ⟨prog :: ([45, fb] ++ v) :: post, X, L⟩ flag
      = ⟨some (v, true), ⟨[], []⟩⟩ := by
  have hvl : 0 < v.length := List.length_pos.mpr hv
  have hn : ¬ (v.length + 1 + 1 < 2) := by omega
  have hn2 : 2 < v.length + 1 + 1 := by omega
  simp [Usage.optss, optssLoop, Run.map, optssResult, hfb, hn, hn2]

theorem optss_separate (u : Usage) (X : ExitHook) (L : GoString) (prog : GoString)
    (flag : Int) (fb : Nat) (hfb : byte flag = fb) (v : GoString) (post : List GoString) :
    Usage.optss u ⟨prog :: [45, fb] :: v :: post, X, L⟩ flag
      = ⟨some (v, true), ⟨[], []⟩⟩ := by
  simp [Usage.optss, optssLoop, Run.map, optssResult, hfb]

theorem atoiDigits_some : ∀ (ds : GoString) (n m : Nat), atoiDigits ds n = some m →
    ∀ c ∈ ds, 48 ≤ c ∧ c ≤ 57 := by
  intro ds
  induction ds with
  | nil => intro n m _ c hc; simp at hc
  | cons a t ih =>
    intro n m h c hc
    unfold atoiDigits at h
    by_cases ha : 48 ≤ a ∧ a ≤ 57
    · rw [if_pos ha] at h
      rcases List.mem_cons.mp hc with rfl | hc
      · exact ha
      · exact ih _ _ h c hc
    · rw [if_neg ha] at h
      exact Option.noConfusion h

theorem Atoi_none_of_not_isBase10 (s : GoString) (h : ¬ isBase10 s) : Atoi s = none := by
  cases hA : Atoi s with
  | none => rfl
  | some n =>
    exfalso
    apply h
    match s, hA with
    | c :: t, hA =>
      unfold Atoi at hA
      simp only [] at hA
      by_cases hl : (if c = 45 ∨ c = 43 then t else c :: t).length < 1
      · rw [if_pos hl] at hA; exact Option.noConfusion hA
      · rw [if_neg hl] at hA
        cases hd : atoiDigits (if c = 45 ∨ c = 43 then t else c :: t) 0 with
        | none => rw [hd] at hA; exact Option.noConfusion hA
        | some un =>
          refine ⟨if c = 45 ∨ c = 43 then t else c :: t, ?_, atoiDigits_some _ _ _ hd, ?_⟩
          · intro he; rw [he] at hl; simp at hl
          · by_cases hc : c = 45 ∨ c = 43
            · rw [if_pos hc]
              rcases hc with rfl | rfl
              · exact Or.inr (Or.inl rfl)
              · exact Or.inr (Or.inr rfl)
            · rw [if_neg hc]; exact Or.inl rfl

/-- C5. Signed integers decode without escaping: for an ASCII flag character `f`, an integer
`n` in the range of `int` and a default `d`, `OptN(f, d)` returns `n` on
`[prog, "-f" ++ decimal(n)]` and on `[prog, "-f", decimal(n)]`, where `decimal(n)` is the
base-10 rendering of `n` with a leading `-` when `n` is negative; and when the flag is found
with a raw value that is not a base-10 integer (an optional sign, then one or more decimal
digits), `OptN` returns `d`. -/
theorem C5_OptN_decodes_signed_integers (u : Usage) (X : ExitHook) (L : GoString)
    (prog : GoString) (f : Nat) (hf : f < 128) (n : Int)
    (hn : -2 ^ (intSize - 1) ≤ n ∧ n < 2 ^ (intSize - 1)) (d : Int) :
    (Usage.OptN u ⟨[prog, [45, f] ++ decimal n], X, L⟩ f d).ret = some n ∧
    (Usage.OptN u ⟨[prog, [45, f], decimal n], X, L⟩ f d).ret = some n ∧
    ∀ (E : Env) (flag : Int) (raw : GoString),
      (Usage.optss u E flag).ret = some (raw, true) → ¬ isBase10 raw →
      (Usage.OptN u E flag d).ret = some d := by
  have hA := Atoi_decimal n hn
  have hne : decimal n ≠ [] := by
    intro he; rw [he] at hA; simp [Atoi] at hA
  refine ⟨?_, ?_, ?_⟩
  · unfold Usage.OptN
    rw [optss_attached u X L prog f f (byte_ofNat f (by omega)) (decimal n) hne []]
    simp [Run.map, hA]
  · unfold Usage.OptN
    rw [optss_separate u X L prog f f (byte_ofNat f (by omega)) (decimal n) []]
    simp [Run.map, hA]
  · intro E flag raw hret hnb
    unfold Usage.OptN
    rw [Run.map_ret, hret]
    simp [Atoi_none_of_not_isBase10 raw hnb]

theorem not_isBase10_hex : ¬ isBase10 (str "0xFFEG") := by
  rintro ⟨ds, _, hd, h | h | h⟩
  · have := hd 120 (by rw [← h]; decide)
    omega
  · have h1 : (str "0xFFEG").getD 0 0 = 45 := by rw [h]; rfl
    revert h1; decide
  · have h1 : (str "0xFFEG").getD 0 0 = 43 := by rw [h]; rfl
    revert h1; decide

/-- C5, witness: the flags `a` and `c` of `TestNum` with the value -222, and its flag `d`
whose raw value `0xFFEG` is not a base-10 integer. -/
theorem C5_OptN_decodes_signed_integers_witness :
    (97 < 128) ∧ (-2 ^ (intSize - 1) ≤ (-222 : Int) ∧ (-222 : Int) < 2 ^ (intSize - 1)) ∧
    decimal (-222) = str "-222" ∧
    (Usage.OptN (str "help") ⟨[str "test", [45, 97] ++ decimal (-222)], Exit, HelpLead⟩
      (97 : Nat) 3).ret = some (-222) ∧
    (Usage.OptN (str "help") ⟨[str "test", [45, 97], decimal (-222)], Exit, HelpLead⟩
      (97 : Nat) 3).ret = some (-222) ∧
    (Usage.optss (str "help")
      (Env.ofArgs ["test", "-a-222", "-b", "11", "-c", "-55", "-d0xFFEG"]) 100).ret
        = some (str "0xFFEG", true) ∧
    ¬ isBase10 (str "0xFFEG") ∧
    (Usage.OptN (str "help")
      (Env.ofArgs ["test", "-a-222", "-b", "11", "-c", "-55", "-d0xFFEG"]) 100 3).ret
        = some 3 :=
  have h := C5_OptN_decodes_signed_integers (str "help") Exit HelpLead (str "test") 97
    (by decide) (-222) (by decide) 3
  ⟨by decide, by decide, by decide, h.1, h.2.1, by decide, not_isBase10_hex,
    h.2.2 (Env.ofArgs ["test", "-a-222", "-b", "11", "-c", "-55", "-d0xFFEG"]) 100
      (str "0xFFEG") (by decide) not_isBase10_hex⟩

/-! ## String values -/

/-- C6. Dash escape: when the flag is found and its raw value is a backslash followed by
`"-" ++ t`, `OptS` returns exactly `"-" ++ t`; this is so when the escaped value is attached
to the flag token (`-c\-dashed`) and when it is the next token (`-e \-dashed`). -/
theorem C6_OptS_dash_escape (u : Usage) (flag : Int) (d t : GoString) :
    (∀ E : Env, (Usage.optss u E flag).ret = some (92 :: 45 :: t, true) →
      (Usage.OptS u E flag d).ret = some (45 :: t)) ∧
    (∀ (X : ExitHook) (L prog : GoString) (post : List GoString),
      (Usage.OptS u ⟨prog :: ([45, byte flag] ++ 92 :: 45 :: t) :: post, X, L⟩ flag d).ret
        = some (45 :: t)) ∧
    (∀ (X : ExitHook) (L prog : GoString) (post : List GoString),
      (Usage.OptS u ⟨prog :: [45, byte flag] :: (92 :: 45 :: t) :: post, X, L⟩ flag d).ret
        = some (45 :: t)) := by
  have hv : optsValue (92 :: 45 :: t) d = 45 :: t := by simp [optsValue]
  refine ⟨fun E h => ?_, fun X L prog post => ?_, fun X L prog post => ?_⟩
  · unfold Usage.OptS
    rw [Run.map_ret, h]
    simp [hv]
  · unfold Usage.OptS
    rw [optss_attached u X L prog flag (byte flag) rfl _ (List.cons_ne_nil _ _) post]
    simp [Run.map, hv]
  · unfold Usage.OptS
    rw [optss_separate u X L prog flag (byte flag) rfl _ post]
    simp [Run.map, hv]

/-- C6, witness: the flags `c` (escaped value attached) and `e` (escaped value in the next
token) of `TestString`. -/
theorem C6_OptS_dash_escape_witness :
    (Usage.optss (str "help") (Env.ofArgs ["test", "-aStringA", "-b", "String2",
      "-c\\-dashed", "-d", "-dashed", "-e", "\\-dashed"]) 101).ret
        = some (92 :: 45 :: str "dashed", true) ∧
    (Usage.OptS (str "help") (Env.ofArgs ["test", "-aStringA", "-b", "String2",
      "-c\\-dashed", "-d", "-dashed", "-e", "\\-dashed"]) 101 (str "ups!")).ret
        = some (str "-dashed") ∧
    (Usage.OptS (str "help") (Env.ofArgs ["test", "-aStringA", "-b", "String2",
      "-c\\-dashed", "-d", "-dashed", "-e", "\\-dashed"]) 99 (str "ups!")).ret
        = some (str "-dashed") :=
  ⟨by decide,
    (C6_OptS_dash_escape (str "help") 101 (str "ups!") (str "dashed")).1
      (Env.ofArgs ["test", "-aStringA", "-b", "String2", "-c\\-dashed", "-d", "-dashed",
        "-e", "\\-dashed"]) (by decide),
    by decide⟩

/-- C7. When the flag is found and its raw value is empty or begins with an unescaped `-`,
`OptS` returns exactly the supplied default. -/
theorem C7_OptS_ambiguous_value_gives_default (u : Usage) (E : Env) (flag : Int)
    (d raw : GoString) (h : (Usage.optss u E flag).ret = some (raw, true))
    (hraw : raw = [] ∨ ∃ t, raw = 45 :: t) :
    (Usage.OptS u E flag d).ret = some d := by
  unfold Usage.OptS
  rw [Run.map_ret, h]
  rcases hraw with rfl | ⟨t, rfl⟩ <;> simp [optsValue]

/-- C7, witness: on `prog -s -v` the raw value of the flag `s` is the next token `-v`. -/
theorem C7_OptS_ambiguous_value_gives_default_witness :
    (Usage.optss (str "usage") (Env.ofArgs ["prog", "-s", "-v"]) 115).ret
      = some (str "-v", true) ∧
    (str "-v" = [] ∨ ∃ t, str "-v" = 45 :: t) ∧
    (Usage.OptS (str "usage") (Env.ofArgs ["prog", "-s", "-v"]) 115 (str "dflt")).ret
      = some (str "dflt") :=
  ⟨by decide, Or.inr ⟨str "v", by decide⟩,
    C7_OptS_ambiguous_value_gives_default (str "usage") (Env.ofArgs ["prog", "-s", "-v"]) 115
      (str "dflt") (str "-v") (by decide) (Or.inr ⟨str "v", by decide⟩)⟩

/-- C8. The code on the arguments of `TestString`, as the tests run it: the flag token `-d`
is followed by the token `-dashed`, and `OptS('d', "ups!")` returns the default `ups!`, not
the empty string that the test expects. -/
theorem C8_OptS_unescaped_dash_on_TestString :
    (Usage.optss (str "Help message of the mopt package (testing).")
      (Env.test ["test", "-aStringA", "-b", "String2", "-c\\-dashed", "-d", "-dashed", "-e",
        "\\-dashed"]) 100).ret = some (str "-dashed", true) ∧
    (Usage.OptS (str "Help message of the mopt package (testing).")
      (Env.test ["test", "-aStringA", "-b", "String2", "-c\\-dashed", "-d", "-dashed", "-e",
        "\\-dashed"]) 100 (str "ups!")).ret = some (str "ups!") ∧
    (Usage.OptS (str "Help message of the mopt package (testing).")
      (Env.test ["test", "-aStringA", "-b", "String2", "-c\\-dashed", "-d", "-dashed", "-e",
        "\\-dashed"]) 100 (str "ups!")).ret ≠ some (str "") := by
  decide

/-- C9. When the flag is found and its raw value is not empty, does not begin with `-` and
does not begin with a backslash followed by `-`, `OptS` returns the raw value unchanged. -/
theorem C9_OptS_plain_value_unchanged (u : Usage) (E : Env) (flag : Int)
    (d raw : GoString) (h : (Usage.optss u E flag).ret = some (raw, true))
    (h1 : raw ≠ []) (h2 : ¬ ∃ t, raw = 45 :: t) (h3 : ¬ ∃ t, raw = 92 :: 45 :: t) :
    (Usage.OptS u E flag d).ret = some raw := by
  unfold Usage.OptS
  rw [Run.map_ret, h]
  match raw, h1, h2, h3 with
  | [a], _, h2, _ =>
    have ha : a ≠ 45 := fun hc => h2 ⟨[], by rw [hc]⟩
    simp [optsValue, ha]
  | a :: b :: t, _, h2, h3 =>
    have ha : a ≠ 45 := fun hc => h2 ⟨b :: t, by rw [hc]⟩
    have hb : ¬ (a = 92 ∧ b = 45) := fun hc => h3 ⟨t, by rw [hc.1, hc.2]⟩
    simp [optsValue, ha, hb]

/-- C9, witness: a lone backslash as the value of the flag `s`. -/
theorem C9_OptS_plain_value_unchanged_witness :
    (Usage.optss (str "usage") (Env.ofArgs ["prog", "-s", "\\"]) 115).ret
      = some ([92], true) ∧
    ([92] ≠ ([] : GoString)) ∧ (¬ ∃ t, ([92] : GoString) = 45 :: t) ∧
    (¬ ∃ t, ([92] : GoString) = 92 :: 45 :: t) ∧
    (Usage.OptS (str "usage") (Env.ofArgs ["prog", "-s", "\\"]) 115 (str "dflt")).ret
      = some [92] :=
  ⟨by decide, by decide, by simp, by simp,
    C9_OptS_plain_value_unchanged (str "usage") (Env.ofArgs ["prog", "-s", "\\"]) 115
      (str "dflt") [92] (by decide) (by decide) (by simp) (by simp)⟩

/-! ## Early help inspection -/

theorem optssLoop_trace_of_flag_h (E : Env) (u : Usage) (flag : Int) (hf : byte flag = 104) :
    ∀ (rest : List GoString) (i : Nat) (s : GoString) (tr : Trace),
      (optssLoop E u flag rest i s tr).trace = tr := by
  intro rest
  induction rest with
  | nil => intro i s tr; rfl
  | cons a rest ih =>
    intro i s tr
    unfold optssLoop
    simp only []
    by_cases c1 : a.length < 2
    · rw [if_pos c1]; exact ih _ _ _
    · rw [if_neg c1]
      by_cases c2 : a.getD 0 0 = 45 ∧ a.getD 1 0 = byte flag
      · rw [if_pos c2]
      · rw [if_neg c2]
        have c3 : ¬ (a.getD 0 0 = 45 ∧ a.getD 1 0 = 104) := by rw [← hf]; exact c2
        rw [if_neg c3]
        by_cases c4 : a.getD 0 0 = 45 ∧ a.getD 1 0 = 45
        · rw [if_pos c4]
        · rw [if_neg c4]; exact ih _ _ _

theorem optss_trace_of_flag_h (E : Env) (u : Usage) :
    (Usage.optss u E 104).trace = ⟨[], []⟩ := by
  unfold Usage.optss
  rw [Run.map_trace]
  exact optssLoop_trace_of_flag_h E u 104 (by decide) _ _ _ _

/-- C10. Early help inspection: a query whose flag is `h` makes no call to the exit hook and
prints nothing, on every argument sequence and with every exit hook; a `-h` token is then an
ordinary match, and `OptS('h', d)` on `[prog, "-h", t]` returns `t` for every non-empty `t`
that begins neither with `-` nor with a backslash followed by `-`. -/
theorem C10_flag_h_is_an_ordinary_flag {F : Type} (ParseFloat : GoString → Option F)
    (u : Usage) (E : Env) (d : GoString) (dn : Int) (df : F) (current : Nat)
    (all : GoString) :
    (Usage.optss u E 104).trace = ⟨[], []⟩ ∧
    (Usage.OptS u E 104 d).trace = ⟨[], []⟩ ∧
    (Usage.OptN u E 104 dn).trace = ⟨[], []⟩ ∧
    (Usage.OptF ParseFloat u E 104 df).trace = ⟨[], []⟩ ∧
    (Usage.OptB u E 104).trace = ⟨[], []⟩ ∧
    (Usage.OptCSF u E 104 current all).trace = ⟨[], []⟩ ∧
    (∀ prog t : GoString, t ≠ [] → (¬ ∃ r, t = 45 :: r) → (¬ ∃ r, t = 92 :: 45 :: r) →
      Usage.OptS u ⟨[prog, [45, 104], t], E.Exit, E.HelpLead⟩ 104 d
        = ⟨some t, ⟨[], []⟩⟩) := by
  have h := optss_trace_of_flag_h E u
  refine ⟨h, ?_, ?_, ?_, ?_, ?_, ?_⟩
  · unfold Usage.OptS; rw [Run.map_trace]; exact h
  · unfold Usage.OptN; rw [Run.map_trace]; exact h
  · unfold Usage.OptF; rw [Run.map_trace]; exact h
  · unfold Usage.OptB; rw [Run.map_trace]; exact h
  · unfold Usage.OptCSF; rw [Run.map_trace]; exact h
  · intro prog t h1 h2 h3
    unfold Usage.OptS
    rw [optss_separate u E.Exit E.HelpLead prog 104 104 (by decide) t []]
    match t, h1, h2, h3 with
    | [a], _, h2, _ =>
      have ha : a ≠ 45 := fun hc => h2 ⟨[], by rw [hc]⟩
      simp [Run.map, optsValue, ha]
    | a :: b :: t, _, h2, h3 =>
      have ha : a ≠ 45 := fun hc => h2 ⟨b :: t, by rw [hc]⟩
      have hb : ¬ (a = 92 ∧ b = 45) := fun hc => h3 ⟨t, by rw [hc.1, hc.2]⟩
      simp [Run.map, optsValue, ha, hb]

/-- C10, witness: the arguments of `TestHelp` with the default `Exit`: the subtopic is
returned, nothing is printed and the process goes on. -/
theorem C10_flag_h_is_an_ordinary_flag_witness :
    (str "subtopic" ≠ []) ∧ (¬ ∃ r, str "subtopic" = 45 :: r) ∧
    (¬ ∃ r, str "subtopic" = 92 :: 45 :: r) ∧
    Usage.OptS (str "help") (Env.ofArgs ["test", "-h", "subtopic"]) 104 (str "bad")
      = ⟨some (str "subtopic"), ⟨[], []⟩⟩ :=
  have h2 : ¬ ∃ r, str "subtopic" = 45 :: r := by
    rintro ⟨r, hr⟩
    have h1 : (str "subtopic").getD 0 0 = 45 := by rw [hr]; rfl
    revert h1; decide
  have h3 : ¬ ∃ r, str "subtopic" = 92 :: 45 :: r := by
    rintro ⟨r, hr⟩
    have h1 : (str "subtopic").getD 0 0 = 92 := by rw [hr]; rfl
    revert h1; decide
  ⟨by decide, h2, h3,
    (C10_flag_h_is_an_ordinary_flag (fun _ => (none : Option Int)) (str "help")
      (Env.ofArgs ["test", "-h", "subtopic"]) (str "bad") 0 0 0 []).2.2.2.2.2.2
      (str "test") (str "subtopic") (by decide) h2 h3⟩

/-! ## The help path -/

theorem optssLoop_trace_returning (E : Env) (u : Usage) (flag : Int)
    (hx : E.Exit = .returning) :
    ∀ (rest : List GoString) (i : Nat) (s : GoString) (tr : Trace),
      (optssLoop E u flag rest i s tr).trace =
        ⟨tr.printed ++ List.replicate
            ((rest.takeWhile (stepsOver flag)).countP helpTok) [E.Args.getD 0 [], E.HelpLead, u],
          tr.exits ++ List.replicate
            ((rest.takeWhile (stepsOver flag)).countP helpTok) 0⟩ := by
  intro rest
  induction rest with
  | nil => intro i s tr; simp [optssLoop]
  | cons a rest ih =>
    intro i s tr
    unfold optssLoop
    simp only []
    by_cases c1 : a.length < 2
    · have hp : stepsOver flag a = true :=
        decide_eq_true ⟨fun hc => by have := hc.1; omega, fun hc => by have := hc.1; omega⟩
      have hh : ¬ (helpTok a = true) := by
        simp only [stepsOver, helpTok, decide_eq_true_eq]; exact fun hc => by have := hc.1; omega
      rw [if_pos c1, ih, List.takeWhile_cons_of_pos hp, List.countP_cons_of_neg _ _ hh]
    · rw [if_neg c1]
      by_cases c2 : a.getD 0 0 = 45 ∧ a.getD 1 0 = byte flag
      · have hp : ¬ (stepsOver flag a = true) := by
          simp only [stepsOver, helpTok, decide_eq_true_eq]
          exact fun hc => hc.1 ⟨by omega, c2.1, c2.2⟩
        rw [if_pos c2, List.takeWhile_cons_of_neg hp]
        simp
      · rw [if_neg c2]
        have nf : ¬ isFlagTok flag a := fun hc => c2 ⟨hc.2.1, hc.2.2⟩
        by_cases c3 : a.getD 0 0 = 45 ∧ a.getD 1 0 = 104
        · have hp : stepsOver flag a = true :=
            decide_eq_true ⟨nf, fun hc => by have := hc.2.2; have := c3.2; omega⟩
          have hh : helpTok a = true := decide_eq_true ⟨by omega, c3.1, c3.2⟩
          rw [if_pos c3]
          cases hE : E.Exit with
          | osExit => rw [hE] at hx; exact ExitHook.noConfusion hx
          | returning =>
            simp only []
            rw [ih, List.takeWhile_cons_of_pos hp, List.countP_cons_of_pos _ _ hh]
            simp only [List.replicate_succ, List.append_assoc, List.singleton_append]
        · rw [if_neg c3]
          have nh : ¬ (helpTok a = true) := by
            simp only [stepsOver, helpTok, decide_eq_true_eq]; exact fun hc => c3 ⟨hc.2.1, hc.2.2⟩
          by_cases c4 : a.getD 0 0 = 45 ∧ a.getD 1 0 = 45
          · have hp : ¬ (stepsOver flag a = true) := by
              simp only [stepsOver, helpTok, decide_eq_true_eq]
              exact fun hc => hc.2 ⟨by omega, c4.1, c4.2⟩
            rw [if_pos c4, List.takeWhile_cons_of_neg hp]
            simp
          · have hp : stepsOver flag a = true :=
              decide_eq_true ⟨nf, fun hc => c4 ⟨hc.2.1, hc.2.2⟩⟩
            rw [if_neg c4, ih, List.takeWhile_cons_of_pos hp, List.countP_cons_of_neg _ _ nh]

theorem optss_trace_returning (E : Env) (u : Usage) (flag : Int) (hx : E.Exit = .returning) :
    (Usage.optss u E flag).trace =
      ⟨List.replicate (helpsMet E flag) [E.Args.getD 0 [], E.HelpLead, u],
        List.replicate (helpsMet E flag) 0⟩ := by
  unfold Usage.optss
  rw [Run.map_trace, optssLoop_trace_returning E u flag hx]
  simp [helpsMet, stepped]

theorem mem_takeWhile_of_forall {α : Type} (p : α → Bool) :
    ∀ (l : List α) (n : Nat) (h : n < l.length),
      (∀ k (hk : k < l.length), k ≤ n → p (l.get ⟨k, hk⟩) = true) →
      l.get ⟨n, h⟩ ∈ l.takeWhile p := by
  intro l
  induction l with
  | nil => intro n h; simp at h
  | cons a l ih =>
    intro n h hall
    have ha : p a = true := hall 0 (by simp) (by omega)
    rw [List.takeWhile_cons_of_pos ha]
    cases n with
    | zero => simp
    | succ n =>
      refine List.mem_cons_of_mem _ ?_
      have h1 : n < l.length := by simpa using h
      exact ih n h1 fun k hk hkn => hall (k + 1) (by simpa using hk) (by omega)

theorem helpsMet_pos (E : Env) (flag : Int) (hf : byte flag ≠ 104) (j : Nat) (hj1 : 1 ≤ j)
    (hj2 : j < E.Args.length) (hh : isHelp (E.tok j))
    (hbefore : ∀ k, 1 ≤ k → k < j → ¬ isFlagTok flag (E.tok k) ∧ ¬ isTerm (E.tok k)) :
    1 ≤ helpsMet E flag := by
  have hlen : j - 1 < (E.Args.drop 1).length := by simp; omega
  have hget : ∀ k (hk : k < (E.Args.drop 1).length), (E.Args.drop 1).get ⟨k, hk⟩ = E.tok (k + 1) := by
    intro k hk
    have hk1 : k + 1 < E.Args.length := by simp at hk; omega
    simp [Env.tok, List.getD_eq_getElem?_getD, List.getElem?_eq_getElem hk1, Nat.add_comm]
  have hnf : ¬ isFlagTok flag (E.tok j) := fun hc => hf (by rw [← hc.2.2, hh.2.2])
  have hnt : ¬ isTerm (E.tok j) := fun hc => by have := hc.2.2; have := hh.2.2; omega
  have hmem := mem_takeWhile_of_forall
    (stepsOver flag) (E.Args.drop 1) (j - 1) hlen (by
      intro k hk hkj
      rw [hget k hk]
      apply decide_eq_true
      rcases Nat.lt_or_ge (k + 1) j with hlt | hge
      · exact hbefore (k + 1) (by omega) hlt
      · have : k + 1 = j := by omega
        rw [this]; exact ⟨hnf, hnt⟩)
  rw [hget (j - 1) hlen, show j - 1 + 1 = j by omega] at hmem
  unfold helpsMet stepped
  exact List.countP_pos_iff.mpr ⟨E.tok j, hmem, decide_eq_true hh⟩

/-- C11 (as amended). With an exit hook that returns, as the recorder of the tests does: when
a help token stands at an index `j ≥ 1`, no token at an index in `1..j-1` matches the flag or
is a terminator, and the byte of the flag is not `h`, a single query calls the exit hook once
for every help token that its scan meets, each time with status 0, and prints the usage as
often; that is at least once, and exactly once when the scan meets exactly one help
token. -/
theorem C11_exit_hook_called_per_help_token {F : Type} (ParseFloat : GoString → Option F)
    (u : Usage) (E : Env) (flag : Int) (ds : GoString) (dn : Int) (df : F) (current : Nat)
    (all : GoString) (hx : E.Exit = .returning) (hf : byte flag ≠ 104) (j : Nat)
    (hj1 : 1 ≤ j) (hj2 : j < E.Args.length) (hh : isHelp (E.tok j))
    (hbefore : ∀ k, 1 ≤ k → k < j → ¬ isFlagTok flag (E.tok k) ∧ ¬ isTerm (E.tok k)) :
    1 ≤ helpsMet E flag ∧
    (Usage.OptB u E flag).trace.exits = List.replicate (helpsMet E flag) 0 ∧
    (Usage.OptB u E flag).trace.printed
      = List.replicate (helpsMet E flag) [E.Args.getD 0 [], E.HelpLead, u] ∧
    (helpsMet E flag = 1 → (Usage.OptB u E flag).trace.exits = [0]) ∧
    (Usage.OptS u E flag ds).trace.exits = List.replicate (helpsMet E flag) 0 ∧
    (Usage.OptN u E flag dn).trace.exits = List.replicate (helpsMet E flag) 0 ∧
    (Usage.OptF ParseFloat u E flag df).trace.exits = List.replicate (helpsMet E flag) 0 ∧
    (Usage.OptCSF u E flag current all).trace.exits = List.replicate (helpsMet E flag) 0 := by
  have ht := optss_trace_returning E u flag hx
  have hB : (Usage.OptB u E flag).trace = (Usage.optss u E flag).trace := rfl
  have hS : (Usage.OptS u E flag ds).trace = (Usage.optss u E flag).trace := rfl
  have hN : (Usage.OptN u E flag dn).trace = (Usage.optss u E flag).trace := rfl
  have hF : (Usage.OptF ParseFloat u E flag df).trace = (Usage.optss u E flag).trace := rfl
  have hC : (Usage.OptCSF u E flag current all).trace = (Usage.optss u E flag).trace := rfl
  rw [hB, hS, hN, hF, hC, ht]
  refine ⟨helpsMet_pos E flag hf j hj1 hj2 hh hbefore, rfl, rfl, fun h1 => ?_, rfl, rfl, rfl,
    rfl⟩
  rw [h1]
  rfl

/-- C11, witness: the arguments of `TestHelp` and its query `OptB('x')`; the hook of the
tests is called once. -/
theorem C11_exit_hook_called_per_help_token_witness :
    (Env.test ["test", "-h", "subtopic"]).Exit = .returning ∧ byte 120 ≠ 104 ∧
    1 ≤ 1 ∧ 1 < (Env.test ["test", "-h", "subtopic"]).Args.length ∧
    isHelp ((Env.test ["test", "-h", "subtopic"]).tok 1) ∧
    (∀ k, 1 ≤ k → k < 1 → ¬ isFlagTok 120 ((Env.test ["test", "-h", "subtopic"]).tok k) ∧
      ¬ isTerm ((Env.test ["test", "-h", "subtopic"]).tok k)) ∧
    helpsMet (Env.test ["test", "-h", "subtopic"]) 120 = 1 ∧
    (Usage.OptB (str "help") (Env.test ["test", "-h", "subtopic"]) 120).trace.exits = [0] :=
  ⟨rfl, by decide, by decide, by decide, by decide, fun k h1 h2 => by omega, by decide,
    (C11_exit_hook_called_per_help_token (fun _ => (none : Option Int)) (str "help")
      (Env.test ["test", "-h", "subtopic"]) 120 [] 0 0 0 [] rfl (by decide) 1 (by decide)
      (by decide) (by decide) (fun k h1 h2 => by omega)).2.2.2.1 (by decide)⟩

/-- C11, counterexample: on `test -h -h` with a hook that returns, the help token at index 1
is preceded by no terminator and the flag `x` is not matched before it, yet the query
`OptB('x')` calls the exit hook twice, not exactly once. -/
theorem C11_counterexample :
    (Env.test ["test", "-h", "-h"]).Exit = .returning ∧
    isHelp ((Env.test ["test", "-h", "-h"]).tok 1) ∧
    (∀ k, 1 ≤ k → k < 1 → ¬ isFlagTok 120 ((Env.test ["test", "-h", "-h"]).tok k) ∧
      ¬ isTerm ((Env.test ["test", "-h", "-h"]).tok k)) ∧
    (Usage.OptB (str "help") (Env.test ["test", "-h", "-h"]) 120).trace.exits = [0, 0] ∧
    (Usage.OptB (str "help") (Env.test ["test", "-h", "-h"]) 120).trace.exits ≠ [0] :=
  ⟨rfl, by decide, fun k h1 h2 => by omega, by decide, by decide⟩

/-- C12 (as amended). Every ASCII character is a valid flag: for every flag character `c`
below 128, whose UTF-8 encoding is the single byte `c`, `OptB(c)` on the argument sequence
`[prog, "-" followed by c]` returns true, with either exit hook. -/
theorem C12_ascii_flag_is_matched (u : Usage) (X : ExitHook) (L prog : GoString) (c : Nat)
    (hc : c < 128) :
    (Usage.OptB u ⟨[prog, 45 :: runeString c], X, L⟩ c).ret = some true := by
  have hr : runeString (c : Int) = [c] := by
    unfold runeString utf8
    rw [if_pos (by omega)]
    simp [hc]
  rw [hr]
  simp [Usage.OptB, Usage.optss, optssLoop, Run.map, optssResult, byte_ofNat c (by omega)]

/-- C12, witness: the flag `b` on `test -b`. -/
theorem C12_ascii_flag_is_matched_witness :
    98 < 128 ∧ 45 :: runeString (98 : Nat) = str "-b" ∧
    (Usage.OptB (str "help") ⟨[str "test", 45 :: runeString (98 : Nat)], Exit, HelpLead⟩
      (98 : Nat)).ret = some true :=
  ⟨by decide, by decide,
    C12_ascii_flag_is_matched (str "help") Exit HelpLead (str "test") 98 (by decide)⟩

/-- C12, counterexample: the flag `é` (U+00E9). The token `-é` is the bytes `2D C3 A9`; its
second byte `C3` is not `byte('é') = E9`, and `OptB('é')` returns false. -/
theorem C12_counterexample :
    45 :: runeString 233 = str "-é" ∧ str "-é" = [0x2D, 0xC3, 0xA9] ∧ byte 233 = 0xE9 ∧
    (Usage.OptB (str "usage") ⟨[str "prog", 45 :: runeString 233], Exit, HelpLead⟩ 233).ret
      = some false ∧
    (Usage.OptB (str "usage") ⟨[str "prog", 45 :: runeString 233], Exit, HelpLead⟩ 233).ret
      ≠ some true := by
  decide

/-! ## The positional arguments -/

theorem getD_drop_one (l : List GoString) (k : Nat) :
    (l.drop 1).getD k [] = l.getD (k + 1) [] := by
  simp [List.getD_eq_getElem?_getD, List.getElem?_drop, Nat.add_comm]

theorem cons_eq_drop {r : List GoString} {a : GoString} {rest : List GoString} {i : Nat}
    (h : a :: rest = r.drop i) : i < r.length ∧ a = r.getD i [] ∧ rest = r.drop (i + 1) :=
  drop_cons_inv ⟨r, .osExit, []⟩ h

theorem optlLoop_terminator (r : List GoString) :
    ∀ (rest : List GoString) (i lo : Nat), rest = r.drop i →
      ∀ j, i ≤ j → j + 1 < r.length → isTerm (r.getD j []) →
        (∀ k, i ≤ k → k < j → ¬ isTerm (r.getD k [])) →
        optlLoop r rest i lo = .inl (r.drop (j + 1)) := by
  intro rest
  induction rest with
  | nil =>
    intro i lo h j hij hj _ _
    have := congrArg List.length h
    simp at this
    omega
  | cons a rest ih =>
    intro i lo h j hij hj ht hmin
    obtain ⟨hi, ha, hrest⟩ := cons_eq_drop h
    unfold optlLoop
    rcases Nat.eq_or_lt_of_le hij with heq | hlt
    · subst heq
      rw [← ha] at ht
      have c1 : ¬ (a.length < 2 ∨ a.getD 0 0 ≠ 45) := by
        have := ht.1; have := ht.2.1; omega
      have c2 : a.getD 1 0 = 45 ∧ i < r.length - 1 := ⟨ht.2.2, by omega⟩
      rw [if_neg c1, if_pos c2]
    · have hna : ¬ isTerm a := by rw [ha]; exact hmin i (le_refl _) hlt
      by_cases c1 : a.length < 2 ∨ a.getD 0 0 ≠ 45
      · rw [if_pos c1]
        exact ih (i + 1) lo hrest j hlt hj ht fun k hk1 hk2 => hmin k (by omega) hk2
      · rw [if_neg c1]
        have c2 : ¬ (a.getD 1 0 = 45 ∧ i < r.length - 1) :=
          fun hc => hna ⟨by omega, by omega, hc.1⟩
        rw [if_neg c2]
        exact ih (i + 1) (i + 1) hrest j hlt hj ht fun k hk1 hk2 => hmin k (by omega) hk2

theorem optlLoop_marker (r : List GoString) :
    ∀ (rest : List GoString) (i lo : Nat), rest = r.drop i →
      (∀ k, i ≤ k → k + 1 < r.length → ¬ isTerm (r.getD k [])) →
      ∃ lo1, optlLoop r rest i lo = .inr lo1 ∧
        ((lo1 = lo ∧ ∀ k, i ≤ k → k < r.length → ¬ isDash (r.getD k [])) ∨
         (∃ m, i ≤ m ∧ m < r.length ∧ isDash (r.getD m []) ∧ lo1 = m + 1 ∧
            ∀ k, m < k → k < r.length → ¬ isDash (r.getD k []))) := by
  intro rest
  induction rest with
  | nil =>
    intro i lo h _
    have hlen : r.length ≤ i := by
      have := congrArg List.length h
      simp at this
      omega
    exact ⟨lo, rfl, Or.inl ⟨rfl, fun k h1 h2 => by omega⟩⟩
  | cons a rest ih =>
    intro i lo h hno
    obtain ⟨hi, ha, hrest⟩ := cons_eq_drop h
    have hno1 : ∀ k, i + 1 ≤ k → k + 1 < r.length → ¬ isTerm (r.getD k []) :=
      fun k hk1 hk2 => hno k (by omega) hk2
    unfold optlLoop
    by_cases c1 : a.length < 2 ∨ a.getD 0 0 ≠ 45
    · rw [if_pos c1]
      have hnd : ¬ isDash (r.getD i []) := by
        rw [← ha]; intro hc; have := hc.1; have := hc.2; omega
      obtain ⟨lo1, h1, h2⟩ := ih (i + 1) lo hrest hno1
      refine ⟨lo1, h1, ?_⟩
      rcases h2 with ⟨h3, h4⟩ | ⟨m, h3, h4, h5, h6, h7⟩
      · refine Or.inl ⟨h3, fun k hk1 hk2 => ?_⟩
        rcases Nat.eq_or_lt_of_le hk1 with heq | hlt
        · rw [← heq]; exact hnd
        · exact h4 k hlt hk2
      · exact Or.inr ⟨m, by omega, h4, h5, h6, h7⟩
    · rw [if_neg c1]
      have hd : isDash (r.getD i []) := by
        rw [← ha]; exact ⟨by omega, by omega⟩
      have c2 : ¬ (a.getD 1 0 = 45 ∧ i < r.length - 1) := by
        intro hc
        refine hno i (le_refl _) (by omega) ?_
        rw [← ha]
        exact ⟨by omega, by omega, hc.1⟩
      rw [if_neg c2]
      obtain ⟨lo1, h1, h2⟩ := ih (i + 1) (i + 1) hrest hno1
      refine ⟨lo1, h1, Or.inr ?_⟩
      rcases h2 with ⟨h3, h4⟩ | ⟨m, h3, h4, h5, h6, h7⟩
      · exact ⟨i, le_refl _, hi, hd, h3, fun k hk1 hk2 => h4 k hk1 hk2⟩
      · exact ⟨m, by omega, h4, h5, h6, h7⟩

theorem OptL_unfold (u : Usage) (E : Env) (h : 1 ≤ E.Args.length) :
    Usage.OptL u E =
      match optlLoop (E.Args.drop 1) (E.Args.drop 1) 0 0 with
      | .inl res => some res
      | .inr lo =>
        if lo < (E.Args.drop 1).length then some ((E.Args.drop 1).drop lo) else some [] := by
  unfold Usage.OptL
  rw [if_neg (by omega)]

theorem drop_of_marker (r : List GoString) (lo : Nat) :
    (if lo < r.length then some (r.drop lo) else some []) = some (r.drop lo) := by
  by_cases h : lo < r.length
  · rw [if_pos h]
  · rw [if_neg h, List.drop_eq_nil_of_le (by omega)]

/-- C16. The terminator of `OptL`: when `j` is the smallest index `≥ 1` of a token of length
at least 2 that begins with `--`, and `j` is not the last index, `OptL` returns exactly the
tokens after index `j`, in order and verbatim. -/
theorem C16_OptL_after_terminator (u : Usage) (E : Env) (j : Nat) (hj1 : 1 ≤ j)
    (hj2 : j + 1 < E.Args.length) (ht : isTerm (E.tok j))
    (hmin : ∀ k, 1 ≤ k → k < j → ¬ isTerm (E.tok k)) :
    Usage.OptL u E = some (E.Args.drop (j + 1)) := by
  rw [OptL_unfold u E (by omega)]
  have hlen : (E.Args.drop 1).length = E.Args.length - 1 := by simp
  have key := optlLoop_terminator (E.Args.drop 1) (E.Args.drop 1) 0 0 rfl (j - 1)
    (Nat.zero_le _) (by omega)
    (by rw [getD_drop_one, show j - 1 + 1 = j by omega]; exact ht)
    (fun k _ hk => by rw [getD_drop_one]; exact hmin (k + 1) (by omega) (by omega))
  rw [key]
  simp only [List.drop_drop]
  congr 2
  omega

/-- C16, witness: two argument sequences of `TestList`. -/
theorem C16_OptL_after_terminator_witness :
    (1 ≤ 2) ∧ (2 + 1 < (Env.ofArgs ["test", "une", "--", "-duo", "tre"]).Args.length) ∧
    isTerm ((Env.ofArgs ["test", "une", "--", "-duo", "tre"]).tok 2) ∧
    (∀ k, 1 ≤ k → k < 2 →
      ¬ isTerm ((Env.ofArgs ["test", "une", "--", "-duo", "tre"]).tok k)) ∧
    Usage.OptL (str "help") (Env.ofArgs ["test", "une", "--", "-duo", "tre"])
      = some [str "-duo", str "tre"] ∧
    Usage.OptL (str "help") (Env.ofArgs ["test", "--", "one", "-x", "two", "three", "-y"])
      = some [str "one", str "-x", str "two", str "three", str "-y"] :=
  have hmin : ∀ k, 1 ≤ k → k < 2 →
      ¬ isTerm ((Env.ofArgs ["test", "une", "--", "-duo", "tre"]).tok k) := by
    intro k h1 h2
    interval_cases k
    decide
  ⟨by decide, by decide, by decide, hmin,
    C16_OptL_after_terminator (str "help") (Env.ofArgs ["test", "une", "--", "-duo", "tre"])
      2 (by decide) (by decide) (by decide) hmin,
    by decide⟩

/-- C17. The tail after the last option: on a non-empty argument sequence in which no token
at an index `≥ 1`, other than possibly the last, is a terminator, `OptL` returns all tokens
after index 0 when no token at an index `≥ 1` has length at least 2 and begins with `-`, and
otherwise exactly the tokens after the last such token; that is the empty list when this
token is the last one. -/
theorem C17_OptL_after_last_option (u : Usage) (E : Env) (hne : 1 ≤ E.Args.length)
    (hno : ∀ k, 1 ≤ k → k + 1 < E.Args.length → ¬ isTerm (E.tok k)) :
    ((∀ k, 1 ≤ k → k < E.Args.length → ¬ isDash (E.tok k)) →
      Usage.OptL u E = some (E.Args.drop 1)) ∧
    (∀ m, 1 ≤ m → m < E.Args.length → isDash (E.tok m) →
      (∀ k, m < k → k < E.Args.length → ¬ isDash (E.tok k)) →
      Usage.OptL u E = some (E.Args.drop (m + 1))) ∧
    (∀ m, 1 ≤ m → m + 1 = E.Args.length → isDash (E.tok m) → Usage.OptL u E = some []) := by
  have hlen : (E.Args.drop 1).length = E.Args.length - 1 := by simp
  obtain ⟨lo1, hloop, hcase⟩ := optlLoop_marker (E.Args.drop 1) (E.Args.drop 1) 0 0 rfl
    (fun k _ hk => by rw [getD_drop_one]; exact hno (k + 1) (by omega) (by omega))
  have hres : Usage.OptL u E = some ((E.Args.drop 1).drop lo1) := by
    rw [OptL_unfold u E hne, hloop]
    exact drop_of_marker _ _
  have hlast : ∀ m, 1 ≤ m → m < E.Args.length → isDash (E.tok m) →
      (∀ k, m < k → k < E.Args.length → ¬ isDash (E.tok k)) →
      Usage.OptL u E = some (E.Args.drop (m + 1)) := by
    intro m hm1 hm2 hd hafter
    rcases hcase with ⟨_, h2⟩ | ⟨m1, _, h2, h3, h4, h5⟩
    · exfalso
      have := h2 (m - 1) (Nat.zero_le _) (by omega)
      rw [getD_drop_one, show m - 1 + 1 = m by omega] at this
      exact this hd
    · rw [getD_drop_one] at h3
      have hm : m1 + 1 = m := by
        rcases Nat.lt_trichotomy (m1 + 1) m with hlt | heq | hgt
        · exfalso
          have := h5 (m - 1) (by omega) (by omega)
          rw [getD_drop_one, show m - 1 + 1 = m by omega] at this
          exact this hd
        · exact heq
        · exact absurd h3 (hafter (m1 + 1) hgt (by omega))
      rw [hres, h4, hm, List.drop_drop, Nat.add_comm]
  refine ⟨fun hnd => ?_, hlast, fun m hm1 hm2 hd => ?_⟩
  · rcases hcase with ⟨h1, _⟩ | ⟨m1, _, h2, h3, _, _⟩
    · rw [hres, h1, List.drop_zero]
    · exfalso
      rw [getD_drop_one] at h3
      exact hnd (m1 + 1) (by omega) (by omega) h3
  · rw [hlast m hm1 (by omega) hd (fun k h1 h2 => by omega),
      List.drop_eq_nil_of_le (by omega)]

/-- C17, witness: three argument sequences of `TestList`; the last option of the first is
`-n12` at index 3, the second has no option, the third ends with `--`. -/
theorem C17_OptL_after_last_option_witness :
    (1 ≤ (Env.ofArgs ["test", "-a", "string", "-n12", "one", "two", "three"]).Args.length) ∧
    (∀ k, 1 ≤ k →
      k + 1 < (Env.ofArgs ["test", "-a", "string", "-n12", "one", "two", "three"]).Args.length →
      ¬ isTerm ((Env.ofArgs ["test", "-a", "string", "-n12", "one", "two", "three"]).tok k)) ∧
    Usage.OptL (str "help") (Env.ofArgs ["test", "-a", "string", "-n12", "one", "two", "three"])
      = some [str "one", str "two", str "three"] ∧
    Usage.OptL (str "help") (Env.ofArgs ["test", "one", "two", "three"])
      = some [str "one", str "two", str "three"] ∧
    Usage.OptL (str "help") (Env.ofArgs ["test", "one", "two", "--"]) = some [] :=
  have hno : ∀ k, 1 ≤ k →
      k + 1 < (Env.ofArgs ["test", "-a", "string", "-n12", "one", "two", "three"]).Args.length →
      ¬ isTerm ((Env.ofArgs ["test", "-a", "string", "-n12", "one", "two", "three"]).tok k) := by
    intro k h1 h2
    have h3 : k + 1 < 7 := h2
    have h4 : k < 6 := by omega
    interval_cases k <;> decide
  ⟨by decide, hno,
    (C17_OptL_after_last_option (str "help")
      (Env.ofArgs ["test", "-a", "string", "-n12", "one", "two", "three"]) (by decide) hno).2.1
      3 (by decide) (by decide) (by decide) (by
        intro k h1 h2
        have h3 : k < 7 := h2
        interval_cases k <;> decide),
    by decide, by decide⟩

/-! ## The bit flags: one entry -/

theorem entryNo_iff (fl : GoString) : entryNo fl = true ↔ beginsNo fl := by
  unfold entryNo beginsNo
  rw [decide_eq_true_eq]
  constructor
  · rintro ⟨_, h2⟩
    exact ⟨fl.drop 3, by rw [← h2, List.take_append_drop]⟩
  · rintro ⟨m, rfl⟩
    exact ⟨by simp, by simp⟩

theorem entryName_of_beginsNo (n : GoString) :
    entryName ([110, 111, 45] ++ n) = n ∧ entryNo ([110, 111, 45] ++ n) = true := by
  have h : entryNo ([110, 111, 45] ++ n) = true := (entryNo_iff _).mpr ⟨n, rfl⟩
  refine ⟨?_, h⟩
  unfold entryName
  rw [if_pos h]
  simp

theorem entryName_of_not_beginsNo (n : GoString) (h : ¬ beginsNo n) :
    entryName n = n ∧ entryNo n = false := by
  have h1 : entryNo n = false := by
    cases hb : entryNo n with
    | false => rfl
    | true => exact absurd ((entryNo_iff n).mp hb) h
  refine ⟨?_, h1⟩
  unfold entryName
  rw [h1]
  rfl

theorem entry_eq_of_name (e n : GoString) (h : entryName e = n) :
    (entryNo e = false ∧ e = n) ∨ (entryNo e = true ∧ e = [110, 111, 45] ++ n) := by
  cases hb : entryNo e with
  | false =>
    refine Or.inl ⟨rfl, ?_⟩
    unfold entryName at h
    rw [hb] at h
    exact h
  | true =>
    refine Or.inr ⟨rfl, ?_⟩
    obtain ⟨m, hm⟩ := (entryNo_iff e).mp hb
    have := (entryName_of_beginsNo m).1
    rw [← hm, h] at this
    rw [hm, this]

theorem csfEntry_eq (allf : List GoString) (r : Nat) (fl : GoString) :
    csfEntry allf r fl = (csfTable (entryName fl) (entryNo fl) allf (r, sbAt 0, not32 (sbAt 0))).1 :=
  rfl

theorem sbAt_succ (o : Nat) : (sbAt o <<< 1) % 2 ^ 32 = sbAt (o + 1) := by
  unfold sbAt
  have h : 2 ^ (o + 1) = 2 ^ o * 2 := pow_succ 2 o
  rw [Nat.shiftLeft_eq, h]
  generalize 2 ^ o = x
  have h32 : 2 ^ 32 = 4294967296 := by norm_num
  have h1 : 2 ^ 1 = 2 := by norm_num
  rw [h32, h1]
  omega

theorem sbAt_lt (o : Nat) : sbAt o < 2 ^ 32 := Nat.mod_lt _ (by decide)

theorem testBit_sbAt (o j : Nat) (hj : j < 32) : (sbAt o).testBit j = decide (o = j) := by
  unfold sbAt
  rw [Nat.testBit_mod_two_pow, Nat.testBit_two_pow]
  simp [hj]

theorem testBit_not32 (x j : Nat) (hj : j < 32) : (not32 x).testBit j = !x.testBit j := by
  unfold not32
  rw [Nat.testBit_xor, Nat.testBit_two_pow_sub_one]
  simp [hj]

theorem csfTable_testBit (fl : GoString) (no : Bool) (j : Nat) (hj : j < 32) :
    ∀ (table : List GoString) (o r : Nat),
      (csfTable fl no table (r, sbAt o, not32 (sbAt o))).1.testBit j =
        if o ≤ j ∧ table.get? (j - o) = some fl then !no else r.testBit j := by
  intro table
  induction table with
  | nil => intro o r; simp [csfTable]
  | cons tf rest ih =>
    intro o r
    unfold csfTable
    simp only []
    rw [sbAt_succ, ih]
    by_cases hoj : o = j
    · subst hoj
      have h1 : ¬ (o + 1 ≤ o ∧ rest.get? (o - (o + 1)) = some fl) := by omega
      rw [if_neg h1]
      simp only [le_refl, Nat.sub_self, List.get?_cons_zero, true_and, Option.some.injEq]
      by_cases hf : fl = tf
      · subst hf
        cases no <;> simp [testBit_sbAt _ _ hj, testBit_not32 _ _ hj]
      · have hf2 : ¬ tf = fl := fun h => hf h.symm
        simp [hf, hf2]
    · have hb : (sbAt o).testBit j = false := by
        rw [testBit_sbAt _ _ hj]; simp [hoj]
      have hr1 : (if fl = tf ∧ no = true then r &&& not32 (sbAt o)
          else if fl = tf then r ||| sbAt o else r).testBit j = r.testBit j := by
        split_ifs <;> simp [testBit_not32 _ _ hj, hb]
      rw [hr1]
      by_cases hlt : o + 1 ≤ j
      · have e : j - o = (j - (o + 1)) + 1 := by omega
        have h2 : o ≤ j := by omega
        simp only [hlt, h2, true_and, e, List.get?_cons_succ]
      · have h2 : ¬ o ≤ j := by omega
        simp [hlt, h2]

theorem csfEntry_testBit (allf : List GoString) (r : Nat) (e : GoString) (j : Nat)
    (hj : j < 32) :
    (csfEntry allf r e).testBit j =
      if allf.get? j = some (entryName e) then !entryNo e else r.testBit j := by
  rw [csfEntry_eq, csfTable_testBit _ _ j hj]
  simp

theorem csfTable_fst_of_not_mem (fl : GoString) (no : Bool) :
    ∀ (table : List GoString) (st : Nat × Nat × Nat), fl ∉ table →
      (csfTable fl no table st).1 = st.1 := by
  intro table
  induction table with
  | nil => intro st _; rfl
  | cons tf rest ih =>
    intro st h
    obtain ⟨r, sb, sm⟩ := st
    have h1 : fl ≠ tf := fun hc => h (by rw [hc]; exact List.mem_cons_self _ _)
    have h2 : fl ∉ rest := fun hc => h (List.mem_cons_of_mem _ hc)
    unfold csfTable
    simp only []
    rw [ih _ h2]
    simp [h1]

theorem csfTable_lt (fl : GoString) (no : Bool) :
    ∀ (table : List GoString) (r sb sm : Nat), r < 2 ^ 32 → sb < 2 ^ 32 →
      (csfTable fl no table (r, sb, sm)).1 < 2 ^ 32 := by
  intro table
  induction table with
  | nil => intro r sb sm hr _; exact hr
  | cons tf rest ih =>
    intro r sb sm hr hsb
    unfold csfTable
    simp only []
    refine ih _ _ _ ?_ (Nat.mod_lt _ (by decide))
    split_ifs
    · exact Nat.lt_of_le_of_lt Nat.and_le_left hr
    · exact Nat.or_lt_two_pow hr hsb
    · exact hr

theorem csfEntry_lt (allf : List GoString) (r : Nat) (e : GoString) (hr : r < 2 ^ 32) :
    csfEntry allf r e < 2 ^ 32 :=
  csfTable_lt _ _ allf r 1 _ hr (by decide)

/-! ## The bit flags: the entries of a raw value -/

theorem foldl_csfEntry_lt (allf : List GoString) :
    ∀ (es : List GoString) (r : Nat), r < 2 ^ 32 → es.foldl (csfEntry allf) r < 2 ^ 32 := by
  intro es
  induction es with
  | nil => intro r hr; exact hr
  | cons e es ih => intro r hr; exact ih _ (csfEntry_lt allf r e hr)

theorem foldl_testBit_untouched (allf : List GoString) (j : Nat) (hj : j < 32) :
    ∀ (es : List GoString) (r : Nat), (∀ e ∈ es, allf.get? j ≠ some (entryName e)) →
      (es.foldl (csfEntry allf) r).testBit j = r.testBit j := by
  intro es
  induction es with
  | nil => intro r _; rfl
  | cons e es ih =>
    intro r h
    rw [List.foldl_cons, ih _ fun e1 h1 => h e1 (List.mem_cons_of_mem _ h1),
      csfEntry_testBit allf r e j hj, if_neg (h e (List.mem_cons_self _ _))]

theorem foldl_testBit_last (allf : List GoString) (j : Nat) (hj : j < 32)
    (front : List GoString) (e : GoString) (post : List GoString) (r : Nat)
    (he : allf.get? j = some (entryName e))
    (hpost : ∀ e1 ∈ post, allf.get? j ≠ some (entryName e1)) :
    ((front ++ e :: post).foldl (csfEntry allf) r).testBit j = !entryNo e := by
  rw [List.foldl_append, List.foldl_cons, foldl_testBit_untouched allf j hj post _ hpost,
    csfEntry_testBit allf _ e j hj, if_pos he]

theorem exists_last (P : GoString → Prop) :
    ∀ es : List GoString, (∀ e ∈ es, ¬ P e) ∨
      ∃ front e post, es = front ++ e :: post ∧ P e ∧ ∀ e1 ∈ post, ¬ P e1 := by
  intro es
  induction es with
  | nil => exact Or.inl fun e he => by simp at he
  | cons a es ih =>
    rcases ih with h | ⟨front, e, post, h1, h2, h3⟩
    · by_cases ha : P a
      · exact Or.inr ⟨[], a, es, rfl, ha, h⟩
      · refine Or.inl fun e he => ?_
        rcases List.mem_cons.mp he with rfl | he
        · exact ha
        · exact h e he
    · exact Or.inr ⟨a :: front, e, post, by rw [h1]; rfl, h2, h3⟩

theorem foldl_csfEntry_of_no_name (allf : List GoString) :
    ∀ (es : List GoString) (r : Nat), (∀ e ∈ es, entryName e ∉ allf) →
      es.foldl (csfEntry allf) r = r := by
  intro es
  induction es with
  | nil => intro r _; rfl
  | cons e es ih =>
    intro r h
    rw [List.foldl_cons, ih _ fun e1 h1 => h e1 (List.mem_cons_of_mem _ h1), csfEntry_eq,
      csfTable_fst_of_not_mem _ _ _ _ (h e (List.mem_cons_self _ _))]

theorem Split_ne_nil (sep : Nat) : ∀ s : GoString, Split s sep ≠ [] := by
  intro s
  induction s with
  | nil => simp [Split]
  | cons c t ih =>
    unfold Split
    by_cases hc : c = sep
    · rw [if_pos hc]; exact List.cons_ne_nil _ _
    · rw [if_neg hc]
      cases h : Split t sep with
      | nil => exact absurd h ih
      | cons p ps => exact List.cons_ne_nil _ _

theorem Split_no_sep (sep : Nat) : ∀ s : GoString, ∀ p ∈ Split s sep, sep ∉ p := by
  intro s
  induction s with
  | nil => intro p hp; simp [Split] at hp; rw [hp]; simp
  | cons c t ih =>
    intro p hp
    unfold Split at hp
    by_cases hc : c = sep
    · rw [if_pos hc] at hp
      rcases List.mem_cons.mp hp with rfl | hp
      · simp
      · exact ih p hp
    · rw [if_neg hc] at hp
      cases h : Split t sep with
      | nil => exact absurd h (Split_ne_nil sep t)
      | cons q qs =>
        rw [h] at hp ih
        rcases List.mem_cons.mp hp with rfl | hp
        · intro hm
          rcases List.mem_cons.mp hm with heq | hm
          · exact hc heq.symm
          · exact ih q (List.mem_cons_self _ _) hm
        · exact ih p (List.mem_cons_of_mem _ hp)

theorem Split_of_no_sep (sep : Nat) : ∀ s : GoString, sep ∉ s → Split s sep = [s] := by
  intro s
  induction s with
  | nil => intro _; rfl
  | cons c t ih =>
    intro h
    have hc : c ≠ sep := fun hc => h (by rw [hc]; exact List.mem_cons_self _ _)
    have ht : sep ∉ t := fun hm => h (List.mem_cons_of_mem _ hm)
    unfold Split
    rw [if_neg hc, ih ht]

theorem OptCSF_ret (u : Usage) (E : Env) (flag : Int) (current : Nat) (all raw : GoString)
    (ok : Bool) (h : (Usage.optss u E flag).ret = some (raw, ok)) :
    (Usage.OptCSF u E flag current all).ret =
      some (if ok then (Split raw 44).foldl (csfEntry (Split all 44)) current else current) := by
  unfold Usage.OptCSF
  rw [Run.map_ret, h]
  cases ok <;> rfl

theorem OptCSF_ret_inv (u : Usage) (E : Env) (flag : Int) (current : Nat) (all : GoString)
    (res : Nat) (h : (Usage.OptCSF u E flag current all).ret = some res) :
    ∃ raw ok, (Usage.optss u E flag).ret = some (raw, ok) := by
  unfold Usage.OptCSF at h
  rw [Run.map_ret] at h
  cases hr : (Usage.optss u E flag).ret with
  | none => rw [hr] at h; exact Option.noConfusion h
  | some p => exact ⟨p.1, p.2, rfl⟩

/-! ## The bit flags: the claims -/

theorem nodup_get?_inj {l : List GoString} (hd : l.Nodup) {i j : Nat} {a : GoString}
    (hi : l.get? i = some a) (hj : l.get? j = some a) : i = j := by
  obtain ⟨h1, e1⟩ := List.get?_eq_some.mp hi
  obtain ⟨h2, e2⟩ := List.get?_eq_some.mp hj
  have := (List.Nodup.get_inj_iff hd).mp (e1.trans e2.symm)
  exact congrArg Fin.val this

theorem testBit_of_lt_32 {x j : Nat} (hx : x < 2 ^ 32) (hj : 32 ≤ j) : x.testBit j = false :=
  Nat.testBit_lt_two_pow (Nat.lt_of_lt_of_le hx (Nat.pow_le_pow_right (by decide) hj))

/-- C13. The set-bit of `OptCSF`: for a name table of pairwise distinct names and a table
index `k < 32` whose name `n` does not begin with `no-`, when the flag is found with raw
value exactly `n`, `OptCSF` returns `current` with bit `k` set and every other bit
unchanged. -/
theorem C13_OptCSF_sets_bit (u : Usage) (E : Env) (flag : Int) (current : Nat)
    (all n : GoString) (k : Nat) (hk : k < 32) (hn : (Split all 44).get? k = some n)
    (hd : (Split all 44).Nodup) (hno : ¬ beginsNo n)
    (hfound : (Usage.optss u E flag).ret = some (n, true)) :
    ∃ res, (Usage.OptCSF u E flag current all).ret = some res ∧
      (∀ j, j < 32 → res.testBit j = (decide (j = k) || current.testBit j)) ∧
      (current < 2 ^ 32 → res = current ||| 2 ^ k) := by
  have hsplit : Split n 44 = [n] :=
    Split_of_no_sep 44 n (Split_no_sep 44 all n (List.get?_mem hn))
  obtain ⟨hname, hnob⟩ := entryName_of_not_beginsNo n hno
  have hbits : ∀ j, j < 32 →
      (csfEntry (Split all 44) current n).testBit j = (decide (j = k) || current.testBit j) := by
    intro j hj
    rw [csfEntry_testBit _ _ _ j hj, hname, hnob]
    by_cases hjk : j = k
    · subst hjk
      rw [if_pos hn]
      simp
    · have : ¬ (Split all 44).get? j = some n := fun hc => hjk (nodup_get?_inj hd hc hn)
      rw [if_neg this]
      simp [hjk]
  refine ⟨csfEntry (Split all 44) current n, ?_, hbits, fun hcur => ?_⟩
  · rw [OptCSF_ret u E flag current all n true hfound, hsplit]
    rfl
  · apply Nat.eq_of_testBit_eq
    intro j
    rcases Nat.lt_or_ge j 32 with hj | hj
    · rw [hbits j hj, Nat.testBit_or, Nat.testBit_two_pow, Bool.or_comm]
      congr 1
      exact decide_eq_decide.mpr ⟨fun h => h.symm, fun h => h.symm⟩
    · have h2 : (2 : Nat) ^ k < 2 ^ 32 := Nat.pow_lt_pow_right (by decide) hk
      rw [testBit_of_lt_32 (csfEntry_lt _ _ _ hcur) hj,
        testBit_of_lt_32 (Nat.or_lt_two_pow hcur h2) hj]

/-- C13, witness: the mask 0, the table `x,y,z` and the raw value `y` give 2. -/
theorem C13_OptCSF_sets_bit_witness :
    (1 < 32) ∧ ((Split (str "x,y,z") 44).get? 1 = some (str "y")) ∧
    (Split (str "x,y,z") 44).Nodup ∧ (¬ beginsNo (str "y")) ∧
    ((Usage.optss (str "help") (Env.ofArgs ["prog", "-F", "y"]) 70).ret
      = some (str "y", true)) ∧
    (Usage.OptCSF (str "help") (Env.ofArgs ["prog", "-F", "y"]) 70 0 (str "x,y,z")).ret
      = some 2 ∧
    (∃ res, (Usage.OptCSF (str "help") (Env.ofArgs ["prog", "-F", "y"]) 70 0
        (str "x,y,z")).ret = some res ∧
      (∀ j, j < 32 → res.testBit j = (decide (j = 1) || Nat.testBit 0 j)) ∧
      (0 < 2 ^ 32 → res = 0 ||| 2 ^ 1)) :=
  have hno : ¬ beginsNo (str "y") := by
    rintro ⟨m, hm⟩
    have h1 : (str "y").length = ([110, 111, 45] ++ m).length := by rw [hm]
    have h2 : (str "y").length = 1 := by decide
    rw [h2] at h1
    simp at h1
  ⟨by decide, by decide, by decide, hno, by decide, by decide,
    C13_OptCSF_sets_bit (str "help") (Env.ofArgs ["prog", "-F", "y"]) 70 0 (str "x,y,z")
      (str "y") 1 (by decide) (by decide) (by decide) hno (by decide)⟩

/-- C14. The frame of `OptCSF`: for a bit position `k` in `0..31`, if bit `k` of the result
differs from bit `k` of `current`, then the flag was found, `k` is an index of the table and
the raw value contains, as a comma-separated entry, the `k`-th name of the table when the
result bit is 1, and `no-` followed by that name when the result bit is 0.  When no entry of
the raw value, after stripping a leading `no-`, equals a table name, the result equals
`current`. -/
theorem C14_OptCSF_frame (u : Usage) (E : Env) (flag : Int) (current : Nat)
    (all raw : GoString) (ok : Bool) (res k : Nat) (hk : k < 32)
    (hs : (Usage.optss u E flag).ret = some (raw, ok))
    (hres : (Usage.OptCSF u E flag current all).ret = some res) :
    (res.testBit k ≠ current.testBit k →
      ok = true ∧ ∃ n, (Split all 44).get? k = some n ∧
        ((res.testBit k = true ∧ n ∈ Split raw 44) ∨
         (res.testBit k = false ∧ ([110, 111, 45] ++ n) ∈ Split raw 44))) ∧
    ((∀ e ∈ Split raw 44, ∀ n ∈ Split all 44,
        (¬ beginsNo e → e ≠ n) ∧ e ≠ [110, 111, 45] ++ n) → res = current) := by
  rw [OptCSF_ret u E flag current all raw ok hs] at hres
  have hres1 : res = if ok = true then
      (Split raw 44).foldl (csfEntry (Split all 44)) current else current :=
    (Option.some.inj hres).symm
  cases ok with
  | false =>
    have : res = current := by rw [hres1]; rfl
    exact ⟨fun hne => absurd (by rw [this]) hne, fun _ => this⟩
  | true =>
    have hfold : res = (Split raw 44).foldl (csfEntry (Split all 44)) current := by
      rw [hres1]; rfl
    refine ⟨fun hne => ⟨rfl, ?_⟩, fun hnone => ?_⟩
    · rcases exists_last (fun e => (Split all 44).get? k = some (entryName e)) (Split raw 44)
        with h | ⟨front, e, post, h1, h2, h3⟩
      · exact absurd (by rw [hfold, foldl_testBit_untouched _ k hk _ _ h]) hne
      · have hbit : res.testBit k = !entryNo e := by
          rw [hfold, h1]
          exact foldl_testBit_last _ k hk front e post current h2 h3
        have hmem : e ∈ Split raw 44 := by rw [h1]; simp
        refine ⟨entryName e, h2, ?_⟩
        rcases entry_eq_of_name e (entryName e) rfl with ⟨h4, h5⟩ | ⟨h4, h5⟩
        · exact Or.inl ⟨by rw [hbit, h4]; rfl, by rw [← h5]; exact hmem⟩
        · exact Or.inr ⟨by rw [hbit, h4]; rfl, by rw [← h5]; exact hmem⟩
    · rw [hfold]
      refine foldl_csfEntry_of_no_name _ _ _ fun e he hin => ?_
      rcases entry_eq_of_name e (entryName e) rfl with ⟨h4, h5⟩ | ⟨h4, h5⟩
      · have hnb : ¬ beginsNo e := fun hb => by
          rw [(entryNo_iff e).mpr hb] at h4
          exact Bool.noConfusion h4
        exact (hnone e he (entryName e) hin).1 hnb h5
      · exact (hnone e he (entryName e) hin).2 h5

/-- C14, witness: the table `x,y,z`, the mask 1 and the raw value `y,no-x,q`: bit 1 is set
by the entry `y`, bit 0 is cleared by the entry `no-x`. -/
theorem C14_OptCSF_frame_witness :
    (1 < 32) ∧
    ((Usage.optss (str "help") (Env.ofArgs ["prog", "-F", "y,no-x,q"]) 70).ret
      = some (str "y,no-x,q", true)) ∧
    ((Usage.OptCSF (str "help") (Env.ofArgs ["prog", "-F", "y,no-x,q"]) 70 1
      (str "x,y,z")).ret = some 2) ∧
    (Nat.testBit 2 1 ≠ Nat.testBit 1 1) ∧
    (true = true ∧ ∃ n, (Split (str "x,y,z") 44).get? 1 = some n ∧
      ((Nat.testBit 2 1 = true ∧ n ∈ Split (str "y,no-x,q") 44) ∨
       (Nat.testBit 2 1 = false ∧ ([110, 111, 45] ++ n) ∈ Split (str "y,no-x,q") 44))) :=
  ⟨by decide, by decide, by decide, by decide,
    (C14_OptCSF_frame (str "help") (Env.ofArgs ["prog", "-F", "y,no-x,q"]) 70 1 (str "x,y,z")
      (str "y,no-x,q") true 2 1 (by decide) (by decide) (by decide)).1 (by decide)⟩

/-- C15 (as amended). Last entry wins: for a table index `k < 32` with name `n`, when the
flag is found and the last comma-separated entry of the raw value that refers to `n` (a
plain entry equal to `n`, or an entry `"no-" ++ n`) is the `no-` one, bit `k` of the result
is 0; when it is the plain one and `n` does not begin with `no-`, bit `k` of the result is
1; both whatever bit `k` of `current` is. -/
theorem C15_OptCSF_last_entry_wins (u : Usage) (E : Env) (flag : Int) (current : Nat)
    (all raw n : GoString) (k : Nat) (front : List GoString) (e : GoString)
    (post : List GoString) (hk : k < 32)
    (hs : (Usage.optss u E flag).ret = some (raw, true))
    (hn : (Split all 44).get? k = some n)
    (hsplit : Split raw 44 = front ++ e :: post)
    (hpost : ∀ e1 ∈ post, e1 ≠ n ∧ e1 ≠ [110, 111, 45] ++ n) :
    ∃ res, (Usage.OptCSF u E flag current all).ret = some res ∧
      (e = [110, 111, 45] ++ n → res.testBit k = false) ∧
      (e = n → ¬ beginsNo n → res.testBit k = true) := by
  refine ⟨_, OptCSF_ret u E flag current all raw true hs, ?_, ?_⟩
  all_goals
    have hp : ∀ e1 ∈ post, (Split all 44).get? k ≠ some (entryName e1) := by
      intro e1 he1 hc
      rw [hn] at hc
      rcases entry_eq_of_name e1 n (Option.some.inj hc).symm with ⟨_, h5⟩ | ⟨_, h5⟩
      · exact (hpost e1 he1).1 h5
      · exact (hpost e1 he1).2 h5
  · intro he
    obtain ⟨h1, h2⟩ := entryName_of_beginsNo n
    rw [← he] at h1 h2
    simp only [if_true]
    rw [hsplit, foldl_testBit_last _ k hk front e post current (by rw [h1]; exact hn) hp, h2]
    rfl
  · intro he hnb
    obtain ⟨h1, h2⟩ := entryName_of_not_beginsNo n hnb
    rw [← he] at h1 h2
    simp only [if_true]
    rw [hsplit, foldl_testBit_last _ k hk front e post current (by rw [h1, he]; exact hn) hp,
      h2]
    rfl

/-- C15, witness: the table `x,y,z`, the raw value `y,no-y` and a mask with bit 1 set give
bit 1 cleared. -/
theorem C15_OptCSF_last_entry_wins_witness :
    (1 < 32) ∧
    ((Usage.optss (str "help") (Env.ofArgs ["prog", "-F", "y,no-y"]) 70).ret
      = some (str "y,no-y", true)) ∧
    ((Split (str "x,y,z") 44).get? 1 = some (str "y")) ∧
    (Split (str "y,no-y") 44 = [str "y"] ++ str "no-y" :: []) ∧
    (∀ e1 ∈ ([] : List GoString), e1 ≠ str "y" ∧ e1 ≠ [110, 111, 45] ++ str "y") ∧
    ((Usage.OptCSF (str "help") (Env.ofArgs ["prog", "-F", "y,no-y"]) 70 2
      (str "x,y,z")).ret = some 0) ∧
    (∃ res, (Usage.OptCSF (str "help") (Env.ofArgs ["prog", "-F", "y,no-y"]) 70 2
        (str "x,y,z")).ret = some res ∧
      (str "no-y" = [110, 111, 45] ++ str "y" → res.testBit 1 = false) ∧
      (str "no-y" = str "y" → ¬ beginsNo (str "y") → res.testBit 1 = true)) :=
  ⟨by decide, by decide, by decide, by decide, fun e1 h => by simp at h, by decide,
    C15_OptCSF_last_entry_wins (str "help") (Env.ofArgs ["prog", "-F", "y,no-y"]) 70 2
      (str "x,y,z") (str "y,no-y") (str "y") 1 [str "y"] (str "no-y") [] (by decide)
      (by decide) (by decide) (by decide) (fun e1 h => by simp at h)⟩

/-- C15, counterexample: the table `no-x` (index 0, name `no-x`), the raw value `no-x` and
the mask 0.  The only entry that refers to the name is the plain entry equal to it, yet bit
0 of the result is 0: the entry is read as `no-` followed by `x`, which is not in the
table. -/
theorem C15_counterexample :
    ((Split (str "no-x") 44).get? 0 = some (str "no-x")) ∧
    ((Usage.optss (str "usage") (Env.ofArgs ["prog", "-F", "no-x"]) 70).ret
      = some (str "no-x", true)) ∧
    (Split (str "no-x") 44 = [] ++ str "no-x" :: []) ∧
    ((Usage.OptCSF (str "usage") (Env.ofArgs ["prog", "-F", "no-x"]) 70 0 (str "no-x")).ret
      = some 0) ∧
    Nat.testBit 0 0 = false := by
  decide

/-- C19. A table name that begins with `no-` is never set from the command line: for a table
index `k < 32` whose name begins with `no-` and a mask `current` with bit `k` clear, bit `k`
of every result of `OptCSF` is clear; and `OptCSF` returns a result when the exit hook
returns or the scan meets no help token. -/
theorem C19_OptCSF_no_name_never_set (u : Usage) (E : Env) (flag : Int) (current : Nat)
    (all n : GoString) (k : Nat) (hk : k < 32) (hn : (Split all 44).get? k = some n)
    (hb : beginsNo n) (hc : current.testBit k = false) :
    (∀ res, (Usage.OptCSF u E flag current all).ret = some res → res.testBit k = false) ∧
    ((E.Exit = .returning ∨ ¬ helpReached E flag) →
      ∃ res, (Usage.OptCSF u E flag current all).ret = some res ∧ res.testBit k = false) := by
  have key : ∀ res, (Usage.OptCSF u E flag current all).ret = some res →
      res.testBit k = false := by
    intro res hres
    obtain ⟨raw, ok, hs⟩ := OptCSF_ret_inv u E flag current all res hres
    rw [OptCSF_ret u E flag current all raw ok hs] at hres
    have hres1 := (Option.some.inj hres).symm
    cases ok with
    | false =>
      have : res = current := by rw [hres1]; rfl
      rw [this]; exact hc
    | true =>
      have hfold : res = (Split raw 44).foldl (csfEntry (Split all 44)) current := by
        rw [hres1]; rfl
      rcases exists_last (fun e => (Split all 44).get? k = some (entryName e)) (Split raw 44)
        with h | ⟨front, e, post, h1, h2, h3⟩
      · rw [hfold, foldl_testBit_untouched _ k hk _ _ h]; exact hc
      · rw [hfold, h1, foldl_testBit_last _ k hk front e post current h2 h3]
        rw [hn] at h2
        rcases entry_eq_of_name e n (Option.some.inj h2).symm with ⟨h4, h5⟩ | ⟨h4, _⟩
        · rw [h5, (entryNo_iff n).mpr hb] at h4
          exact Bool.noConfusion h4
        · rw [h4]; rfl
  refine ⟨key, fun hh => ?_⟩
  obtain ⟨raw, ok, hs, _, _⟩ := optss_spec E u flag hh
  exact ⟨_, OptCSF_ret u E flag current all raw ok hs,
    key _ (OptCSF_ret u E flag current all raw ok hs)⟩

/-- C19, witness: the table `a,no-x`; the entries `no-x` and `a` leave bit 1 clear. -/
theorem C19_OptCSF_no_name_never_set_witness :
    (1 < 32) ∧ ((Split (str "a,no-x") 44).get? 1 = some (str "no-x")) ∧
    beginsNo (str "no-x") ∧ (Nat.testBit 0 1 = false) ∧
    ((Usage.OptCSF (str "help") (Env.ofArgs ["prog", "-F", "no-x,a"]) 70 0
      (str "a,no-x")).ret = some 1) ∧
    Nat.testBit 1 1 = false :=
  ⟨by decide, by decide, ⟨str "x", by decide⟩, by decide, by decide,
    (C19_OptCSF_no_name_never_set (str "help") (Env.ofArgs ["prog", "-F", "no-x,a"]) 70 0
      (str "a,no-x") (str "no-x") 1 (by decide) (by decide) ⟨str "x", by decide⟩
      (by decide)).1 1 (by decide)⟩

/-- C20. `OptCSF` is idempotent in its mask argument: for a `uint32` mask `current`, when
`OptCSF(flag, current, all)` returns `r1`, `OptCSF(flag, r1, all)` returns `r1` too. -/
theorem C20_OptCSF_idempotent (u : Usage) (E : Env) (flag : Int) (current : Nat)
    (all : GoString) (hcur : current < 2 ^ 32) (r1 : Nat)
    (h : (Usage.OptCSF u E flag current all).ret = some r1) :
    (Usage.OptCSF u E flag r1 all).ret = some r1 ∧ r1 < 2 ^ 32 := by
  obtain ⟨raw, ok, hs⟩ := OptCSF_ret_inv u E flag current all r1 h
  rw [OptCSF_ret u E flag current all raw ok hs] at h
  have hr := (Option.some.inj h).symm
  rw [OptCSF_ret u E flag r1 all raw ok hs]
  cases ok with
  | false =>
    have : r1 = current := by rw [hr]; rfl
    exact ⟨rfl, by rw [this]; exact hcur⟩
  | true =>
    have hfold : r1 = (Split raw 44).foldl (csfEntry (Split all 44)) current := by
      rw [hr]; rfl
    have hlt : r1 < 2 ^ 32 := by rw [hfold]; exact foldl_csfEntry_lt _ _ _ hcur
    refine ⟨?_, hlt⟩
    simp only [if_true]
    congr 1
    apply Nat.eq_of_testBit_eq
    intro j
    rcases Nat.lt_or_ge j 32 with hj | hj
    · rcases exists_last (fun e => (Split all 44).get? j = some (entryName e)) (Split raw 44)
        with h1 | ⟨front, e, post, h1, h2, h3⟩
      · rw [foldl_testBit_untouched _ j hj _ _ h1]
      · rw [hfold, h1, foldl_testBit_last _ j hj front e post _ h2 h3,
          foldl_testBit_last _ j hj front e post _ h2 h3]
    · rw [testBit_of_lt_32 (foldl_csfEntry_lt _ _ _ hlt) hj, testBit_of_lt_32 hlt hj]

/-- C20, witness: the table `x,y,z`, the raw value `y,no-x` and the mask 5. -/
theorem C20_OptCSF_idempotent_witness :
    (5 < 2 ^ 32) ∧
    ((Usage.OptCSF (str "help") (Env.ofArgs ["prog", "-F", "y,no-x"]) 70 5
      (str "x,y,z")).ret = some 6) ∧
    ((Usage.OptCSF (str "help") (Env.ofArgs ["prog", "-F", "y,no-x"]) 70 6
      (str "x,y,z")).ret = some 6 ∧ 6 < 2 ^ 32) :=
  ⟨by decide, by decide,
    C20_OptCSF_idempotent (str "help") (Env.ofArgs ["prog", "-F", "y,no-x"]) 70 5
      (str "x,y,z") (by decide) 6 (by decide)⟩

/-! ## Index and slice expressions are within bounds -/

theorem Chk.bind_ok {α β : Type} (a : α) (f : α → Chk β) : (Chk.ok a).bind f = f a := rfl

theorem Chk.and_ok (a b : Bool) : (Chk.ok a).and (Chk.ok b) = .ok (a && b) := by
  cases a <;> rfl

theorem Chk.or_ok (a b : Bool) : (Chk.ok a).or (Chk.ok b) = .ok (a || b) := by
  cases a <;> rfl

theorem Chk.or_true (b : Chk Bool) : (Chk.ok true).or b = .ok true := rfl

theorem index_of_lt {α : Type} (l : List α) (k : Nat) (d : α) (h : k < l.length) :
    index l k = .ok (l.getD k d) := by
  unfold index
  rw [List.getD_eq_getElem?_getD, List.get?_eq_getElem?, List.getElem?_eq_getElem h]
  rfl

theorem byteIs_of_lt (s : GoString) (k c : Nat) (h : k < s.length) :
    byteIs s k c = .ok (decide (s.getD k 0 = c)) := by
  unfold byteIs
  rw [index_of_lt s k 0 h]
  rfl

theorem guard_of_len (s : GoString) (c0 c1 : Nat) (h : ¬ s.length < 2) :
    (byteIs s 0 c0).and (byteIs s 1 c1)
      = .ok (decide (s.getD 0 0 = c0 ∧ s.getD 1 0 = c1)) := by
  rw [byteIs_of_lt s 0 c0 (by omega), byteIs_of_lt s 1 c1 (by omega), Chk.and_ok,
    Bool.decide_and]

theorem drop_eq_cons_getD (l : List GoString) (i : Nat) (h : i < l.length) :
    l.drop i = l.getD i [] :: l.drop (i + 1) := by
  rw [List.drop_eq_getElem_cons h, List.getD_eq_getElem?_getD, List.getElem?_eq_getElem h]
  rfl

theorem mapChk_ok {α β : Type} (f : α → Chk β) (g : α → β) (h : ∀ a, f a = .ok (g a))
    (r : Run α) : Run.mapChk f r = .ok (r.map g) := by
  unfold Run.mapChk Run.map
  cases hr : r.ret with
  | none => rfl
  | some a => simp only [h a, Chk.bind, Option.map_some']

theorem Checked.optssLoop_ok (E : Env) (u : Usage) (flag : Int) :
    ∀ (fuel i : Nat) (s : GoString) (tr : Trace), E.Args.length - i < fuel →
      Checked.optssLoop E u flag fuel i s tr
        = .ok (Mopt.optssLoop E u flag (E.Args.drop i) i s tr) := by
  intro fuel
  induction fuel with
  | zero => intro i s tr h; omega
  | succ fuel ih =>
    intro i s tr h
    unfold Checked.optssLoop
    by_cases hi : i < E.Args.length
    · have hstep : E.Args.length - (i + 1) < fuel := by omega
      rw [if_pos hi, index_of_lt E.Args i [] hi, drop_eq_cons_getD E.Args i hi]
      simp only [Chk.bind]
      unfold Mopt.optssLoop
      simp only []
      by_cases c1 : (E.Args.getD i []).length < 2
      · rw [if_pos c1, if_pos c1]
        exact ih _ _ _ hstep
      · rw [if_neg c1, if_neg c1, guard_of_len _ _ _ c1, guard_of_len _ _ _ c1,
          guard_of_len _ _ _ c1, index_of_lt E.Args 0 [] (by omega)]
        simp only [decide_eq_true_eq]
        by_cases c2 : (E.Args.getD i []).getD 0 0 = 45 ∧
            (E.Args.getD i []).getD 1 0 = byte flag
        · rw [if_pos c2, if_pos c2]
        · rw [if_neg c2, if_neg c2]
          by_cases c3 : (E.Args.getD i []).getD 0 0 = 45 ∧ (E.Args.getD i []).getD 1 0 = 104
          · rw [if_pos c3, if_pos c3]
            cases E.Exit with
            | osExit => rfl
            | returning => exact ih _ _ _ hstep
          · rw [if_neg c3, if_neg c3]
            by_cases c4 : (E.Args.getD i []).getD 0 0 = 45 ∧
                (E.Args.getD i []).getD 1 0 = 45
            · rw [if_pos c4, if_pos c4]
            · rw [if_neg c4, if_neg c4]
              exact ih _ _ _ hstep
    · rw [if_neg hi, List.drop_eq_nil_of_le (by omega)]
      rfl

theorem Checked.optssResult_ok (E : Env) (st : Nat × GoString × Bool) :
    Checked.optssResult E st = .ok (Mopt.optssResult E st) := by
  obtain ⟨i, s, ok⟩ := st
  unfold Checked.optssResult Mopt.optssResult
  cases ok with
  | false => rfl
  | true =>
    simp only [Bool.not_true, Bool.false_eq_true, if_false]
    by_cases h1 : s.length > 2
    · rw [if_pos h1, if_pos h1]
      unfold sliceFrom
      rw [if_pos (by omega)]
      rfl
    · rw [if_neg h1, if_neg h1]
      by_cases h2 : i < E.Args.length
      · rw [if_pos h2, if_pos h2, index_of_lt E.Args i [] h2]
        rfl
      · rw [if_neg h2, if_neg h2]

theorem Checked.optss_ok (u : Usage) (E : Env) (flag : Int) :
    Checked.optss u E flag = .ok (Usage.optss u E flag) := by
  unfold Checked.optss Usage.optss
  rw [Checked.optssLoop_ok E u flag _ 1 [] _ (by omega)]
  exact mapChk_ok _ _ (Checked.optssResult_ok E) _

theorem Checked.optsValue_ok (s dflt : GoString) :
    Checked.optsValue s dflt = .ok (Mopt.optsValue s dflt) := by
  unfold Checked.optsValue Mopt.optsValue
  by_cases h0 : s.length = 0
  · rw [if_pos h0, if_pos h0]
  · rw [if_neg h0, if_neg h0, byteIs_of_lt s 0 45 (by omega)]
    simp only [Chk.bind, decide_eq_true_eq]
    by_cases h1 : s.getD 0 0 = 45
    · rw [if_pos h1, if_pos h1]
    · rw [if_neg h1, if_neg h1]
      by_cases h2 : s.length < 2
      · rw [if_pos h2, if_pos h2]
      · rw [if_neg h2, if_neg h2, guard_of_len s 92 45 h2]
        simp only [decide_eq_true_eq]
        by_cases h3 : s.getD 0 0 = 92 ∧ s.getD 1 0 = 45
        · rw [if_pos h3, if_pos h3]
          unfold sliceFrom
          rw [if_pos (by omega)]
        · rw [if_neg h3, if_neg h3]

theorem Checked.csfEntry_ok (allf : List GoString) (r : Nat) (fl : GoString) :
    Checked.csfEntry allf r fl = .ok (Mopt.csfEntry allf r fl) := by
  unfold Checked.csfEntry Mopt.csfEntry
  by_cases h : fl.length > 2
  · have e1 : (Chk.ok (decide (fl.length > 2))).and
        ((sliceTo fl 3).bind fun p => .ok (decide (p = [110, 111, 45])))
        = .ok (decide (fl.length > 2 ∧ fl.take 3 = [110, 111, 45])) := by
      unfold Chk.and sliceTo Chk.bind
      rw [if_pos (by omega)]
      simp [h]
    rw [e1]
    simp only [Chk.bind]
    by_cases hno : fl.length > 2 ∧ fl.take 3 = [110, 111, 45]
    · have e2 : sliceFrom fl 3 = .ok (fl.drop 3) := by
        unfold sliceFrom; rw [if_pos (by omega)]
      simp only [hno, and_self, decide_True, if_true, e2]
    · simp only [hno, decide_False, Bool.false_eq_true, if_false]
  · have e1 : (Chk.ok (decide (fl.length > 2))).and
        ((sliceTo fl 3).bind fun p => .ok (decide (p = [110, 111, 45])))
        = .ok false := by
      unfold Chk.and Chk.bind
      simp [h]
    have hno : ¬ (fl.length > 2 ∧ fl.take 3 = [110, 111, 45]) := fun hc => h hc.1
    rw [e1]
    simp only [Chk.bind, hno, decide_False, Bool.false_eq_true, if_false]

theorem Checked.csfEntries_ok (allf : List GoString) :
    ∀ (es : List GoString) (r : Nat),
      Checked.csfEntries allf es r = .ok (es.foldl (Mopt.csfEntry allf) r) := by
  intro es
  induction es with
  | nil => intro r; rfl
  | cons e es ih =>
    intro r
    unfold Checked.csfEntries
    rw [Checked.csfEntry_ok]
    exact ih _

theorem Checked.optlLoop_ok (r : List GoString) :
    ∀ (fuel i lo : Nat), r.length - i < fuel →
      Checked.optlLoop r fuel i lo = .ok (Mopt.optlLoop r (r.drop i) i lo) := by
  intro fuel
  induction fuel with
  | zero => intro i lo h; omega
  | succ fuel ih =>
    intro i lo h
    unfold Checked.optlLoop
    by_cases hi : i < r.length
    · have hstep : r.length - (i + 1) < fuel := by omega
      rw [if_pos hi, index_of_lt r i [] hi, drop_eq_cons_getD r i hi]
      unfold Mopt.optlLoop
      by_cases c0 : (r.getD i []).length < 2
      · have e1 : ((Chk.ok (r.getD i [])).bind fun t => Chk.ok (decide (t.length < 2))).or
            ((Chk.ok (r.getD i [])).bind fun t =>
              (index t 0).bind fun c => .ok (decide (c ≠ 45))) = .ok true := by
          rw [Chk.bind_ok, decide_eq_true c0]
          rfl
        rw [e1, if_pos (Or.inl c0)]
        exact ih _ _ hstep
      · have e1 : ((Chk.ok (r.getD i [])).bind fun t => Chk.ok (decide (t.length < 2))).or
            ((Chk.ok (r.getD i [])).bind fun t =>
              (index t 0).bind fun c => .ok (decide (c ≠ 45)))
            = .ok (decide ((r.getD i []).getD 0 0 ≠ 45)) := by
          rw [Chk.bind_ok, Chk.bind_ok, index_of_lt (r.getD i []) 0 0 (by omega), Chk.bind_ok,
            Chk.or_ok, decide_eq_false c0, Bool.false_or]
        rw [e1]
        simp only [Chk.bind, decide_eq_true_eq]
        by_cases c1 : (r.getD i []).getD 0 0 ≠ 45
        · rw [if_pos c1, if_pos (Or.inr c1)]
          exact ih _ _ hstep
        · have c1x : ¬ ((r.getD i []).length < 2 ∨ (r.getD i []).getD 0 0 ≠ 45) := by
            intro hc; rcases hc with hc | hc
            · exact c0 hc
            · exact c1 hc
          rw [if_neg c1, if_neg c1x, byteIs_of_lt _ 1 45 (by omega)]
          have e2 : (Chk.ok (decide ((r.getD i []).getD 1 0 = 45))).and
              (.ok (decide (i < r.length - 1)))
              = .ok (decide ((r.getD i []).getD 1 0 = 45 ∧ i < r.length - 1)) := by
            rw [Chk.and_ok, Bool.decide_and]
          rw [e2]
          simp only [decide_eq_true_eq]
          by_cases c2 : (r.getD i []).getD 1 0 = 45 ∧ i < r.length - 1
          · rw [if_pos c2, if_pos c2]
            unfold sliceFrom
            rw [if_pos (by omega)]
          · rw [if_neg c2, if_neg c2]
            exact ih _ _ hstep
    · rw [if_neg hi, List.drop_eq_nil_of_le (by omega)]
      rfl

theorem Checked.OptL_ok (u : Usage) (E : Env) (hne : 1 ≤ E.Args.length) :
    ∃ v, Checked.OptL u E = .ok v ∧ Usage.OptL u E = some v := by
  have e1 : sliceFrom E.Args 1 = .ok (E.Args.drop 1) := by
    unfold sliceFrom; rw [if_pos hne]
  have e2 := Checked.optlLoop_ok (E.Args.drop 1) ((E.Args.drop 1).length + 1) 0 0 (by omega)
  rw [List.drop_zero] at e2
  unfold Checked.OptL Usage.OptL
  rw [e1, if_neg (by omega)]
  simp only [Chk.bind, e2]
  cases Mopt.optlLoop (E.Args.drop 1) (E.Args.drop 1) 0 0 with
  | inl v => exact ⟨v, rfl, rfl⟩
  | inr lo =>
    by_cases hlo : lo < (E.Args.drop 1).length
    · refine ⟨(E.Args.drop 1).drop lo, ?_, ?_⟩
      · simp only [if_pos hlo]
        unfold sliceFrom
        rw [if_pos (by omega)]
      · simp only [if_pos hlo]
    · exact ⟨[], by simp only [if_neg hlo], by simp only [if_neg hlo]⟩

/-- C18. No query panics on user input: on an argument sequence of length at least 1, with
any tokens, flag, default, mask and name table, every index and slice expression evaluated
by `optss`, `OptS`, `OptN`, `OptB`, `OptCSF` and `OptL` is within bounds; the code with
checked index and slice expressions runs to its end, within its loop bound, and yields the
outcome of the unchecked code. -/
theorem C18_no_query_panics (u : Usage) (E : Env) (flag : Int) (ds : GoString) (dn : Int)
    (current : Nat) (all : GoString) (hne : 1 ≤ E.Args.length) :
    Checked.optss u E flag = .ok (Usage.optss u E flag) ∧
    Checked.OptS u E flag ds = .ok (Usage.OptS u E flag ds) ∧
    Checked.OptN u E flag dn = .ok (Usage.OptN u E flag dn) ∧
    Checked.OptB u E flag = .ok (Usage.OptB u E flag) ∧
    Checked.OptCSF u E flag current all = .ok (Usage.OptCSF u E flag current all) ∧
    ∃ v, Checked.OptL u E = .ok v ∧ Usage.OptL u E = some v := by
  have h := Checked.optss_ok u E flag
  refine ⟨h, ?_, ?_, ?_, ?_, Checked.OptL_ok u E hne⟩
  · unfold Checked.OptS Usage.OptS
    rw [h]
    refine mapChk_ok _ _ (fun r => ?_) _
    by_cases hr : r.2 = true
    · rw [if_pos hr, if_pos hr]; exact Checked.optsValue_ok _ _
    · rw [if_neg hr, if_neg hr]
  · unfold Checked.OptN Usage.OptN
    rw [h]
    exact mapChk_ok _ _ (fun _ => rfl) _
  · unfold Checked.OptB Usage.OptB
    rw [h]
    exact mapChk_ok _ _ (fun _ => rfl) _
  · unfold Checked.OptCSF Usage.OptCSF
    rw [h]
    refine mapChk_ok _ _ (fun r => ?_) _
    by_cases hr : (!r.2) = true
    · rw [if_pos hr, if_pos hr]
    · rw [if_neg hr, if_neg hr]; exact Checked.csfEntries_ok _ _ _

/-- C18, witness: an argument sequence with an empty token, one-byte tokens and a help
token, under the hook of the tests. -/
theorem C18_no_query_panics_witness :
    (1 ≤ (Env.test ["test", "", "-", "-h", "x", "-F", "no,no-,no-x", "--"]).Args.length) ∧
    Checked.OptCSF (str "help")
        (Env.test ["test", "", "-", "-h", "x", "-F", "no,no-,no-x", "--"]) 70 7 (str "x,,no")
      = .ok (Usage.OptCSF (str "help")
        (Env.test ["test", "", "-", "-h", "x", "-F", "no,no-,no-x", "--"]) 70 7
          (str "x,,no")) ∧
    (∃ v, Checked.OptL (str "help")
        (Env.test ["test", "", "-", "-h", "x", "-F", "no,no-,no-x", "--"]) = .ok v ∧
      Usage.OptL (str "help")
        (Env.test ["test", "", "-", "-h", "x", "-F", "no,no-,no-x", "--"]) = some v) ∧
    Checked.OptL (str "help") (Env.ofArgs []) = .panic :=
  have h := C18_no_query_panics (str "help")
    (Env.test ["test", "", "-", "-h", "x", "-F", "no,no-,no-x", "--"]) 70 [] 0 7
    (str "x,,no") (by decide)
  ⟨by decide, h.2.2.2.2.1, h.2.2.2.2.2, by decide⟩

end Mopt
